import Mathlib

/-
  Verification development for the faabric scheduler / MPI-world core.

  The definitions below are a shallow embedding of the C++ sources:
  * MpiWorld.cpp  (point-to-point send/recv, local queues, rank-host map,
    reduce/scan arithmetic, Cartesian topology, world creation),
  * FaabricExecutor.cpp  (finishCall event ordering),
  * the per-host resource accounting of the Scheduler (the Scheduler's own
    source file is not part of the sources at hand, so its resource-counter
    transitions are modelled from the specification, as marked below).

  Machine integers are modelled as `Int`/`Nat`; C++ `/` and `%` (which
  truncate towards zero) are modelled by `Int.tdiv`/`Int.tmod`.  Buffers are
  modelled as lists of bytes (`List Nat`) or, for the typed arithmetic of
  `op_reduce`, as lists of ideal integers (`List Int`) — signed overflow is
  undefined behaviour in the source, and `double` slots are modelled with
  exact arithmetic, the elementwise structure being identical in all three
  datatype branches of `op_reduce`.  A null pointer argument is `none`.
-/

namespace Faabric

/-- The `MPIMessage::MPIMessageType` enum of the faabric protocol. -/
inductive MPIMessageType
  | NORMAL
  | BARRIER_JOIN
  | BARRIER_DONE
  | SCATTER
  | GATHER
  | ALLGATHER
  | REDUCE
  | ALLREDUCE
  | SCAN
  | ALLTOALL
  | SENDRECV
  | RMA_WRITE
deriving DecidableEq, Repr

/-- Datatype id constants (`FAABRIC_INT`, `FAABRIC_DOUBLE`, `FAABRIC_LONG_LONG`);
the concrete numeric values are irrelevant, only their distinctness is used. -/
def FAABRIC_INT : Nat := 0

def FAABRIC_DOUBLE : Nat := 1

def FAABRIC_LONG_LONG : Nat := 2

/-- A datatype descriptor (`faabric_datatype_t`): an id and a byte size. -/
structure faabric_datatype_t where
  id : Nat
  size : Nat
deriving DecidableEq, Repr

/-- `MPI_INT` as a datatype descriptor (4-byte int). -/
def MPI_INT : faabric_datatype_t := { id := FAABRIC_INT, size := 4 }

/-- `MPI_LONG_LONG` as a datatype descriptor (8-byte long long). -/
def MPI_LONG_LONG : faabric_datatype_t := { id := FAABRIC_LONG_LONG, size := 8 }

/-- `MPI_SUCCESS`. -/
def MPI_SUCCESS : Nat := 0

/-- An `faabric::MPIMessage` (wire message between ranks).  `buffer` is the
payload byte string (empty when no data was attached). -/
structure MPIMessage where
  id : Nat
  worldId : Int
  sender : Nat
  destination : Nat
  type : Nat
  count : Nat
  messageType : MPIMessageType
  buffer : List Nat
deriving DecidableEq, Repr

/-- `MPI_Status` as filled in by `MpiWorld::recv` / `MpiWorld::probe`. -/
structure MPI_Status where
  MPI_SOURCE : Nat
  MPI_ERROR : Nat
  bytesSize : Nat
  MPI_TAG : Int
deriving DecidableEq, Repr

/-- Decidable equality of `Except` results, so that the modelled operations
can be evaluated on concrete inputs. -/
instance exceptDecidableEq {ε α : Type} [DecidableEq ε] [DecidableEq α] :
    DecidableEq (Except ε α) := fun x y =>
  match x, y with
  | .ok a, .ok b =>
      if h : a = b then isTrue (by rw [h])
      else isFalse (by intro hc; cases hc; exact h rfl)
  | .error e, .error f =>
      if h : e = f then isTrue (by rw [h])
      else isFalse (by intro hc; cases hc; exact h rfl)
  | .ok _, .error _ => isFalse (by intro hc; cases hc)
  | .error _, .ok _ => isFalse (by intro hc; cases hc)

/-- The runtime errors thrown by the modelled operations (each corresponds to
a `std::runtime_error` in the source). -/
inductive MpiError
  | RankOutOfRange
  | TypeMismatch
  | Truncation
  | UnknownRank
  | QueueForUnknownRank
  | QueueForRemoteRank
  | UnsupportedReduceOp
  | CartesianMismatch
deriving DecidableEq, Repr

/-- Association-list lookup for the rank-host map (`rankHostMap.count` /
`rankHostMap[rank]` in the source; first match wins). -/
def lookupHost : List (Nat × String) → Nat → Option String
  | [], _ => none
  | (r, h) :: rest, rank => if r = rank then some h else lookupHost rest rank

/-- Association-list store for the rank-host map (`rankHostMap[rank] = host`). -/
def storeHost : List (Nat × String) → Nat → String → List (Nat × String)
  | [], rank, host => [(rank, host)]
  | (r, h) :: rest, rank, host =>
      if r = rank then (rank, host) :: rest else (r, h) :: storeHost rest rank host

/-- Association-list lookup for the local queue map, keyed by
`(sendRank, recvRank)` (the source uses the string key `"s_r"`). -/
def findQueue : List ((Nat × Nat) × List MPIMessage) → Nat × Nat → Option (List MPIMessage)
  | [], _ => none
  | (k, q) :: rest, key => if k = key then some q else findQueue rest key

/-- Association-list store for the local queue map
(`localQueueMap.emplace` / assignment). -/
def storeQueue : List ((Nat × Nat) × List MPIMessage) → Nat × Nat → List MPIMessage →
    List ((Nat × Nat) × List MPIMessage)
  | [], key, q => [(key, q)]
  | (k, q0) :: rest, key, q =>
      if k = key then (key, q) :: rest else (k, q0) :: storeQueue rest key q

/-- The per-job `MpiWorld` state used by the point-to-point operations:
world id, size, this host's identifier, the cached rank-host map and the
local in-memory queues. -/
structure MpiWorld where
  id : Int
  size : Nat
  thisHost : String
  rankHostMap : List (Nat × String)
  localQueueMap : List ((Nat × Nat) × List MPIMessage)
deriving DecidableEq, Repr

namespace MpiWorld

/-- `MpiWorld::registerRank`: record this host for the rank in the local cache
(the accompanying KV write is external). -/
def registerRank (w : MpiWorld) (rank : Nat) : MpiWorld :=
  { w with rankHostMap := storeHost w.rankHostMap rank w.thisHost }

/-- `MpiWorld::getHostForRank`: cache-first; on a miss pull from the KV store
(modelled by `kv`); an unset entry (leading null byte) raises the
unknown-rank error.  A successful miss caches the fetched host. -/
def getHostForRank (kv : Nat → Option String) (w : MpiWorld) (rank : Nat) :
    Except MpiError (MpiWorld × String) :=
  match lookupHost w.rankHostMap rank with
  | some h => .ok (w, h)
  | none =>
      match kv rank with
      | some otherHost =>
          .ok ({ w with rankHostMap := storeHost w.rankHostMap rank otherHost }, otherHost)
      | none => .error .UnknownRank

/-- `MpiWorld::checkRankOnThisHost`: error when the rank has no local mapping,
or is mapped to a different host. -/
def checkRankOnThisHost (w : MpiWorld) (rank : Nat) : Except MpiError Unit :=
  match lookupHost w.rankHostMap rank with
  | none => .error .QueueForUnknownRank
  | some h => if h = w.thisHost then .ok () else .error .QueueForRemoteRank

/-- `MpiWorld::getLocalQueue`: check the receiving rank is on this host, then
return the queue for `(sendRank, recvRank)`, creating an empty one on first
use.  Returns the (possibly extended) world together with the queue contents. -/
def getLocalQueue (w : MpiWorld) (sendRank recvRank : Nat) :
    Except MpiError (MpiWorld × List MPIMessage) :=
  match checkRankOnThisHost w recvRank with
  | .error e => .error e
  | .ok _ =>
      match findQueue w.localQueueMap (sendRank, recvRank) with
      | some q => .ok (w, q)
      | none =>
          .ok ({ w with localQueueMap := storeQueue w.localQueueMap (sendRank, recvRank) [] },
               [])

/-- Replace the queue stored under `(sendRank, recvRank)`. -/
def setLocalQueue (w : MpiWorld) (sendRank recvRank : Nat) (q : List MPIMessage) : MpiWorld :=
  { w with localQueueMap := storeQueue w.localQueueMap (sendRank, recvRank) q }

/-- Where a `send` ended up: enqueued on a local queue, routed through
`synchronizeRmaWrite`, or shipped over RPC to another host. -/
inductive SendOutcome
  | enqueuedLocal (m : MPIMessage)
  | rmaSynchronized (m : MPIMessage)
  | sentRemote (host : String) (m : MPIMessage)
deriving DecidableEq, Repr

/-- `MpiWorld::send`: validate the destination rank, build the message (the
payload is attached only when `count > 0` and the source pointer is non-null),
then dispatch locally (RMA writes go through `synchronizeRmaWrite`, everything
else is enqueued on the `(sendRank, recvRank)` queue) or remotely over RPC. -/
def send (kv : Nat → Option String) (w : MpiWorld) (sendRank recvRank : Nat)
    (buffer : Option (List Nat)) (dataType : faabric_datatype_t) (count : Nat)
    (messageType : MPIMessageType) (msgId : Nat) :
    Except MpiError (MpiWorld × SendOutcome) :=
  if recvRank > w.size - 1 then .error .RankOutOfRange
  else
    match getHostForRank kv w recvRank with
    | .error e => .error e
    | .ok (w1, otherHost) =>
        let m : MPIMessage :=
          { id := msgId
            worldId := w1.id
            sender := sendRank
            destination := recvRank
            type := dataType.id
            count := count
            messageType := messageType
            buffer := match buffer with
                      | some bs => if 0 < count then bs else []
                      | none => [] }
        if otherHost = w1.thisHost then
          if messageType = MPIMessageType.RMA_WRITE then
            .ok (w1, .rmaSynchronized m)
          else
            match getLocalQueue w1 sendRank recvRank with
            | .error e => .error e
            | .ok (w2, q) => .ok (setLocalQueue w2 sendRank recvRank (q ++ [m]),
                                  .enqueuedLocal m)
        else
          .ok (w1, .sentRemote otherHost m)

/-- The result of a completed `MpiWorld::recv`: the world after the dequeue,
the bytes moved into the caller's buffer (`none` when the copy branch was not
taken, i.e. nothing was written through the pointer), and the filled status
when one was requested. -/
structure RecvResult where
  world : MpiWorld
  copied : Option (List Nat)
  status : Option MPI_Status
deriving DecidableEq, Repr

/-- `MpiWorld::recv`: dequeue the head of the `(sendRank, recvRank)` queue
(`none` models blocking on an empty queue), fail on a message-type mismatch or
when the message is longer than the receive count, otherwise copy the payload
(only when the message count is positive) and fill the status if requested. -/
def recv (w : MpiWorld) (sendRank recvRank : Nat) (dataType : faabric_datatype_t)
    (count : Nat) (wantStatus : Bool) (messageType : MPIMessageType) :
    Except MpiError (Option RecvResult) :=
  match getLocalQueue w sendRank recvRank with
  | .error e => .error e
  | .ok (w1, q) =>
      match q with
      | [] => .ok none
      | m :: rest =>
          if messageType ≠ m.messageType then .error .TypeMismatch
          else if m.count > count then .error .Truncation
          else
            .ok (some
              { world := setLocalQueue w1 sendRank recvRank rest
                copied := if 0 < m.count then some m.buffer else none
                status := if wantStatus then
                            some { MPI_SOURCE := m.sender
                                   MPI_ERROR := MPI_SUCCESS
                                   bytesSize := m.count * dataType.size
                                   MPI_TAG := -1 }
                          else none })

end MpiWorld

/-- The state-mutating `MpiWorld` operations, used to state that the
local-queue invariant is preserved by every operation.  `send` and `recv`
subsume the collectives, `enqueueMessage` and `probe`, which touch the queue
map only through `getLocalQueue`; `destroyWorld` is `MpiWorld::destroy`'s
`localQueueMap.clear()`. -/
inductive WorldOp
  | registerRankOp (rank : Nat)
  | getHostForRankOp (rank : Nat)
  | getLocalQueueOp (sendRank recvRank : Nat)
  | sendOp (sendRank recvRank : Nat) (buffer : Option (List Nat))
      (dataType : faabric_datatype_t) (count : Nat) (messageType : MPIMessageType) (msgId : Nat)
  | recvOp (sendRank recvRank : Nat) (dataType : faabric_datatype_t)
      (count : Nat) (wantStatus : Bool) (messageType : MPIMessageType)
  | destroyWorld
deriving Repr

/-- Apply one operation to the world.  An operation that throws leaves the
state unchanged (the exception propagates before any mutation), and a `recv`
that would block contributes no state change. -/
def applyWorldOp (kv : Nat → Option String) (w : MpiWorld) : WorldOp → MpiWorld
  | .registerRankOp rank => w.registerRank rank
  | .getHostForRankOp rank =>
      match MpiWorld.getHostForRank kv w rank with
      | .ok (w1, _) => w1
      | .error _ => w
  | .getLocalQueueOp s r =>
      match MpiWorld.getLocalQueue w s r with
      | .ok (w1, _) => w1
      | .error _ => w
  | .sendOp s r buffer dataType count messageType msgId =>
      match MpiWorld.send kv w s r buffer dataType count messageType msgId with
      | .ok (w1, _) => w1
      | .error _ => w
  | .recvOp s r dataType count wantStatus messageType =>
      match MpiWorld.recv w s r dataType count wantStatus messageType with
      | .ok (some res) => res.world
      | _ => w
  | .destroyWorld => { w with localQueueMap := [] }

/-- The local-queue invariant: a queue keyed `(s, r)` exists only for a
receiving rank `r` currently mapped to this host. -/
def QueueKeysMappedHere (w : MpiWorld) : Prop :=
  ∀ entry ∈ w.localQueueMap, lookupHost w.rankHostMap entry.1.2 = some w.thisHost

instance (w : MpiWorld) : Decidable (QueueKeysMappedHere w) := by
  unfold QueueKeysMappedHere; infer_instance

/-- The reduction operations of `faabric_op_t` that `op_reduce` dispatches on
(`faabric_op_max`, `faabric_op_min`, `faabric_op_sum`); `op_other` stands for
every other operation id. -/
inductive faabric_op
  | op_max
  | op_min
  | op_sum
  | op_other
deriving DecidableEq, Repr

/-- Elementwise slot operation corresponding to each supported reduction
(first argument is the output slot, second the input slot, as in the source). -/
def opForSlot : faabric_op → Int → Int → Int
  | .op_max, o, i => max o i
  | .op_min, o, i => min o i
  | .op_sum, o, i => o + i
  | .op_other, o, _ => o

/-- `MpiWorld::op_reduce`: dispatch on the operation and datatype.  Each
supported `(op, datatype)` pair combines `outBuffer[slot]` with
`inBuffer[slot]` for `slot < count`; every call site passes buffers of exactly
`count` slots, so the slot loop is the pointwise combination of the two
buffers.  Unsupported operations or datatypes throw. -/
def op_reduce (operation : faabric_op) (datatype : faabric_datatype_t) (count : Nat)
    (inBuffer outBuffer : List Int) : Except MpiError (List Int) :=
  match operation with
  | .op_max =>
      if datatype.id = FAABRIC_INT ∨ datatype.id = FAABRIC_DOUBLE ∨
          datatype.id = FAABRIC_LONG_LONG then
        .ok (List.zipWith (fun o i => max o i) outBuffer inBuffer)
      else .error .UnsupportedReduceOp
  | .op_min =>
      if datatype.id = FAABRIC_INT ∨ datatype.id = FAABRIC_DOUBLE ∨
          datatype.id = FAABRIC_LONG_LONG then
        .ok (List.zipWith (fun o i => min o i) outBuffer inBuffer)
      else .error .UnsupportedReduceOp
  | .op_sum =>
      if datatype.id = FAABRIC_INT ∨ datatype.id = FAABRIC_DOUBLE ∨
          datatype.id = FAABRIC_LONG_LONG then
        .ok (List.zipWith (fun o i => o + i) outBuffer inBuffer)
      else .error .UnsupportedReduceOp
  | .op_other => .error .UnsupportedReduceOp

/-- The receive loop of `MpiWorld::reduce` at the root: fold over the ranks in
`rs`, skipping the root and combining every other rank's received buffer into
the accumulator with `op_reduce`.  `bufs r` is the buffer rank `r` sent (the
non-root branch of `reduce` sends exactly the rank's send buffer, and the
per-pair FIFO delivers it unchanged to the root's `recv`). -/
def reduceLoop (operation : faabric_op) (datatype : faabric_datatype_t) (count : Nat)
    (root : Nat) (bufs : Nat → List Int) : List Nat → List Int → Except MpiError (List Int)
  | [], acc => .ok acc
  | r :: rs, acc =>
      if r = root then reduceLoop operation datatype count root bufs rs acc
      else
        match op_reduce operation datatype count (bufs r) acc with
        | .error e => .error e
        | .ok acc1 => reduceLoop operation datatype count root bufs rs acc1

/-- `MpiWorld::reduce`, root branch, composed over the whole world: the root
initialises its receive buffer (a copy of its own send buffer when not
in-place; the buffer's existing contents when in-place) and folds the buffers
received from every other rank `0 ≤ r < n` into it in rank order. -/
def reduce (operation : faabric_op) (datatype : faabric_datatype_t) (count : Nat)
    (n root : Nat) (bufs : Nat → List Int) (recvBuffer : List Int) (isInPlace : Bool) :
    Except MpiError (List Int) :=
  let init := if isInPlace then recvBuffer else bufs root
  reduceLoop operation datatype count root bufs (List.range n) init

/-- Little-endian byte string of one `w`-byte integer slot holding the value
`v`: the memory image of a C integer slot, i.e. the base-256 digits of
`v mod 256 ^ w` (two's complement, which for in-range nonnegative values is
the plain binary encoding). -/
def bytesOfSlot (w : Nat) (v : Int) : List Nat :=
  (List.range w).map (fun i => (v.emod ((256 : Int) ^ w)).toNat / 256 ^ i % 256)

/-- The memory image of a buffer of `w`-byte integer slots. -/
def serializeSlots (w : Nat) (buf : List Int) : List Nat :=
  (buf.map (bytesOfSlot w)).flatten

/-- The unsigned value stored in a little-endian byte string. -/
def slotOfBytes (bs : List Nat) : Nat :=
  bs.foldr (fun b acc => b + 256 * acc) 0

/-- The signed (two's complement) value of one `w`-byte slot. -/
def slotValue (w : Nat) (bs : List Nat) : Int :=
  if (slotOfBytes bs : Int) < (256 : Int) ^ w / 2 then (slotOfBytes bs : Int)
  else (slotOfBytes bs : Int) - (256 : Int) ^ w

/-- Read `count` consecutive `w`-byte slots out of a memory image. -/
def deserializeSlots (w count : Nat) (bs : List Nat) : List Int :=
  (List.range count).map (fun j => slotValue w ((bs.drop (j * w)).take w))

/-- `MpiWorld::scan`, composed along the rank chain, with the forwarding hop
modelled at the byte level.  Rank `0` only initialises its receive buffer with
its own values.  Rank `k` sends its accumulator onwards with the hard-coded
`MPI_INT` datatype, so `send` attaches only the first
`MPI_INT.size * count` bytes of the `datatype.size * count`-byte buffer; rank
`k + 1` copies the received bytes into a freshly allocated
`datatype.size * count`-byte `currentAcc` whose tail beyond the message is
uninitialized memory (modelled by `junk k`), reads the slots back out, and
reduces them into its own buffer with `op_reduce`.  (The receiving side
matches only on the `SCAN` message type, so the wire datatype id itself is
not checked; the rank-bounds check of `scan` is a precondition of each
per-rank call and is not repeated here.) -/
def scan (operation : faabric_op) (datatype : faabric_datatype_t) (count : Nat)
    (bufs : Nat → List Int) (junk : Nat → List Nat) : Nat → Except MpiError (List Int)
  | 0 => .ok (bufs 0)
  | k + 1 =>
      match scan operation datatype count bufs junk k with
      | .error e => .error e
      | .ok recvBuffer =>
          let wire := (serializeSlots datatype.size recvBuffer).take (MPI_INT.size * count)
          let currentAcc := deserializeSlots datatype.size count
            ((wire ++ junk k).take (datatype.size * count))
          op_reduce operation datatype count currentAcc (bufs (k + 1))

/-- The elementwise reduction of the send buffers of ranks `0 ≤ r < n` (the
specification's fold over all ranks' buffers, in rank order). -/
def foldBuffers (f : Int → Int → Int) (bufs : Nat → List Int) : Nat → List Int
  | 0 => bufs 0
  | n + 1 => if n = 0 then bufs 0 else List.zipWith f (foldBuffers f bufs n) (bufs n)

/-- C++ integer division (truncates towards zero). -/
def cppDiv (a b : Int) : Int := Int.tdiv a b

/-- C++ integer remainder (truncates towards zero, takes the dividend's sign). -/
def cppMod (a b : Int) : Int := Int.tmod a b

/-- `MpiWorld::getCartesianRank`: reject a rank beyond the world size; require
`dims[0] * dims[1] == size`; require every higher dimension to have exactly
one process; the coordinates are `(rank / dims[1], rank % dims[1], 0, …)`.
(The periods output, always set to 1, carries no information and is omitted.) -/
def getCartesianRank (size rank : Int) (dims : List Int) : Except MpiError (List Int) :=
  match dims with
  | dims0 :: dims1 :: higher =>
      if rank > size - 1 then .error .RankOutOfRange
      else if dims0 * dims1 ≠ size then .error .CartesianMismatch
      else if higher.any (fun d => d ≠ 1) then .error .CartesianMismatch
      else .ok (cppDiv rank dims1 :: cppMod rank dims1 :: higher.map (fun _ => 0))
  | _ => .error .CartesianMismatch

/-- `MpiWorld::getRankFromCoords`: require the stored grid to cover the world
(`cartProcsPerDim[0] * cartProcsPerDim[1] == size`), then
`rank = coords[1] + coords[0] * cartProcsPerDim[1]`. -/
def getRankFromCoords (size cartProcsPerDim0 cartProcsPerDim1 : Int) (coords : List Int) :
    Except MpiError Int :=
  if cartProcsPerDim0 * cartProcsPerDim1 ≠ size then .error .CartesianMismatch
  else
    match coords with
    | c0 :: c1 :: _ => .ok (c1 + c0 * cartProcsPerDim1)
    | _ => .error .CartesianMismatch

/-- The `(source, destination)` pair produced by `shiftCartesianCoords`. -/
structure ShiftPair where
  source : Int
  destination : Int
deriving DecidableEq, Repr

/-- `MpiWorld::shiftCartesianCoords`: decompose the rank into 2-D coordinates,
move `disp` units forwards along `direction` with C++ `%` wrapping to obtain
the destination, and `disp` units backwards (with a `+ dim` guard against a
negative dividend) to obtain the source; any direction other than 0 or 1 keeps
the rank's own coordinates. -/
def shiftCartesianCoords (size cartProcsPerDim0 cartProcsPerDim1 : Int)
    (rank direction disp : Int) : Except MpiError ShiftPair :=
  let coords0 := cppDiv rank cartProcsPerDim1
  let coords1 := cppMod rank cartProcsPerDim1
  let dispCoordsFwd :=
    if direction = 0 then (cppMod (coords0 + disp) cartProcsPerDim0, coords1)
    else if direction = 1 then (coords0, cppMod (coords1 + disp) cartProcsPerDim1)
    else (coords0, coords1)
  match getRankFromCoords size cartProcsPerDim0 cartProcsPerDim1
      [dispCoordsFwd.1, dispCoordsFwd.2] with
  | .error e => .error e
  | .ok destination =>
      let dispCoordsBwd :=
        if direction = 0 then
          (cppMod (coords0 - disp + cartProcsPerDim0) cartProcsPerDim0, coords1)
        else if direction = 1 then
          (coords0, cppMod (coords1 - disp + cartProcsPerDim1) cartProcsPerDim1)
        else (coords0, coords1)
      match getRankFromCoords size cartProcsPerDim0 cartProcsPerDim1
          [dispCoordsBwd.1, dispCoordsBwd.2] with
      | .error e => .error e
      | .ok source => .ok { source := source, destination := destination }

/-- A sibling invocation message built inside `MpiWorld::create`'s dispatch
loop (`messageFactory(user, function)` plus the MPI fields). -/
structure SiblingMessage where
  user : String
  function : String
  isMpi : Bool
  mpiWorldId : Int
  mpiRank : Nat
  cmdline : String
deriving DecidableEq, Repr

/-- Build the sibling message for one rank, as the loop body of
`MpiWorld::create` does. -/
def siblingMessage (user function : String) (worldId : Int) (rank : Nat)
    (cmdline : String) : SiblingMessage :=
  { user := user, function := function, isMpi := true, mpiWorldId := worldId,
    mpiRank := rank, cmdline := cmdline }

/-- The chained calls `MpiWorld::create` hands to the scheduler, modelled from
the literal statement placement in the source: the loop for
`i = 1 .. size - 1` only constructs and discards the per-rank message, and the
single `sch.callFunction(msg)` sits after the loop (the braces there are
unbalanced and `msg` is already out of scope, so the file does not compile
as written; under the literal placement at most the last-built sibling, with
rank `size - 1`, is dispatched, and nothing is dispatched for sizes below 2). -/
def createChainedCalls (user function cmdline : String) (newId : Int) (newSize : Nat) :
    List SiblingMessage :=
  if 2 ≤ newSize then [siblingMessage user function newId (newSize - 1) cmdline] else []

/-- The dispatch the enclosing test (`Test world creation`) and the
specification require: one sibling per rank `1 .. size - 1`, each carrying the
creating call's user and function, `isMpi`, the new world id and its rank. -/
def createChainedCallsIntended (user function cmdline : String) (newId : Int)
    (newSize : Nat) : List SiblingMessage :=
  ((List.range newSize).drop 1).map (fun i => siblingMessage user function newId i cmdline)

/-- Modelled from the spec: the per-host resource record
`{cores, boundExecutors, functionsInFlight}` maintained by the Scheduler
(`Scheduler.cpp` is not among the sources at hand; only its tests are). -/
structure HostResources where
  cores : Nat
  boundExecutors : Nat
  functionsInFlight : Nat
deriving DecidableEq, Repr

/-- Modelled from the spec: the scheduler state transitions that touch this
host's resource record — local placement of a non-thread message (which also
creates an executor unless the executor count already equals the core count:
"do not create a new executor beyond cores"), local inline placement of a
thread message, forwarding to a remote host, the two finished notifications
(which clamp at zero), and shutdown (which resets the counters).  Admitting a
batch is the corresponding sequence of per-message transitions. -/
inductive SchedulerTransition
  | admitLocalFunction
  | admitLocalThread
  | forwardRemote
  | notifyCallFinished
  | notifyFaasletFinished
  | shutdown
deriving DecidableEq, Repr

/-- Modelled from the spec: effect of one scheduler transition on this host's
resource record. -/
def schedStep (r : HostResources) : SchedulerTransition → HostResources
  | .admitLocalFunction =>
      { r with
        functionsInFlight := r.functionsInFlight + 1
        boundExecutors :=
          if r.boundExecutors < r.cores then r.boundExecutors + 1 else r.boundExecutors }
  | .admitLocalThread => { r with functionsInFlight := r.functionsInFlight + 1 }
  | .forwardRemote => r
  | .notifyCallFinished => { r with functionsInFlight := r.functionsInFlight - 1 }
  | .notifyFaasletFinished => { r with boundExecutors := r.boundExecutors - 1 }
  | .shutdown => { r with boundExecutors := 0, functionsInFlight := 0 }

/-- Run a sequence of scheduler transitions. -/
def schedRun (r : HostResources) (ts : List SchedulerTransition) : HostResources :=
  ts.foldl schedStep r

/-- The freshly initialised resource record of a host with `cores` cores. -/
def initResources (cores : Nat) : HostResources :=
  { cores := cores, boundExecutors := 0, functionsInFlight := 0 }

/-- A sample 3-int message from rank 1 to rank 2, used to evaluate the
point-to-point operations on concrete inputs. -/
def sampleMessage : MPIMessage :=
  { id := 1, worldId := 123, sender := 1, destination := 2, type := FAABRIC_INT,
    count := 3, messageType := .NORMAL,
    buffer := [0, 0, 0, 0, 1, 0, 0, 0, 2, 0, 0, 0] }

/-- A sample zero-count message (a send with no data attached). -/
def sampleEmptyMessage : MPIMessage :=
  { id := 2, worldId := 123, sender := 1, destination := 2, type := FAABRIC_INT,
    count := 0, messageType := .NORMAL, buffer := [] }

/-- A sample world: ranks 1 and 2 registered on this host, one message queued
from rank 1 to rank 2. -/
def sampleWorld : MpiWorld :=
  { id := 123, size := 10, thisHost := "hostA",
    rankHostMap := [(1, "hostA"), (2, "hostA")],
    localQueueMap := [((1, 2), [sampleMessage])] }

/-- A sample world whose `(1, 2)` queue holds one zero-count message. -/
def sampleEmptyMsgWorld : MpiWorld :=
  { id := 123, size := 10, thisHost := "hostA",
    rankHostMap := [(1, "hostA"), (2, "hostA")],
    localQueueMap := [((1, 2), [sampleEmptyMessage])] }

/-- A sample world with rank 1 on this host, rank 2 cached as living on
another host, and rank 3 unregistered. -/
def sampleRemoteWorld : MpiWorld :=
  { id := 123, size := 10, thisHost := "hostA",
    rankHostMap := [(1, "hostA"), (2, "hostB")],
    localQueueMap := [] }

/-- A KV store with no rank-host entries. -/
def kvEmpty : Nat → Option String := fun _ => none

/-- The externally observable actions of `FaabricExecutor::executeCall` /
`FaabricExecutor::finishCall`, in program order. -/
inductive ExecutorEvent
  | doExecuteHook
  | preFinishCallHook
  | setOutputData
  | notifyCallFinished
  | setFunctionResult
  | incrementExecutionCount
  | postFinishCallHook
deriving DecidableEq, Repr

/-- `FaabricExecutor::finishCall`: the pre-hook, the error-output write on
failure, then — in this order — the call-finished notification to the
scheduler, the result write to the KV store (`setFunctionResult`), the
execution-counter increment and the post-hook. -/
def finishCallTrace (success : Bool) : List ExecutorEvent :=
  [ExecutorEvent.preFinishCallHook]
    ++ (if success then [] else [ExecutorEvent.setOutputData])
    ++ [ExecutorEvent.notifyCallFinished, ExecutorEvent.setFunctionResult,
        ExecutorEvent.incrementExecutionCount, ExecutorEvent.postFinishCallHook]

/-- The possible outcomes of the `doExecute` hook: a successful return, a
failure return, or a thrown fault (caught by `executeCall`). -/
inductive DoExecuteOutcome
  | retTrue
  | retFalse
  | threw
deriving DecidableEq, Repr

/-- `FaabricExecutor::executeCall`: run the `doExecute` hook; whether it
returns or throws, `finishCall` runs, with `success` true exactly on a `true`
return. -/
def executeCallTrace (outcome : DoExecuteOutcome) : List ExecutorEvent :=
  let success := match outcome with
                 | .retTrue => true
                 | .retFalse => false
                 | .threw => false
  ExecutorEvent.doExecuteHook :: finishCallTrace success

end Faabric

namespace Faabric

/-- Every scheduler transition leaves the core count unchanged. -/
theorem schedStep_cores (r : HostResources) (t : SchedulerTransition) :
    (schedStep r t).cores = r.cores := by
  cases t <;> rfl

/-- One scheduler transition preserves `boundExecutors ≤ cores`. -/
theorem schedStep_bound_le (r : HostResources) (t : SchedulerTransition)
    (h : r.boundExecutors ≤ r.cores) :
    (schedStep r t).boundExecutors ≤ (schedStep r t).cores := by
  cases t <;> simp only [schedStep] <;> first
    | (split_ifs <;> omega)
    | omega

/-- `boundExecutors ≤ cores` is inductive along any transition sequence. -/
theorem schedRun_bound_le (r : HostResources) (h : r.boundExecutors ≤ r.cores) :
    ∀ ts : List SchedulerTransition,
      (schedRun r ts).boundExecutors ≤ (schedRun r ts).cores := by
  intro ts
  induction ts generalizing r with
  | nil => exact h
  | cons t ts ih => exact ih (schedStep r t) (schedStep_bound_le r t h)

/-- Claim C5, counterexample: admitting ten calls on a host with one core (the
specification's own overload scenario) drives `functionsInFlight` to 10, which
exceeds `cores = 1`, so `functionsInFlight ≤ cores` does not hold after every
scheduler state transition. -/
theorem overload_exceeds_inflight_bound :
    (schedRun (initResources 1)
        (List.replicate 10 SchedulerTransition.admitLocalFunction)).functionsInFlight = 10
    ∧ (schedRun (initResources 1)
        (List.replicate 10 SchedulerTransition.admitLocalFunction)).cores = 1
    ∧ ¬ (schedRun (initResources 1)
          (List.replicate 10 SchedulerTransition.admitLocalFunction)).functionsInFlight ≤
        (schedRun (initResources 1)
          (List.replicate 10 SchedulerTransition.admitLocalFunction)).cores := by
  decide

/-- Claim C5, amended: after every scheduler state transition this host's
resource record satisfies `boundExecutors ≤ cores` (local placement creates a
new executor only while the executor count is below the core count, the
finished notification clamps at zero, and shutdown resets the counter);
`functionsInFlight`, by contrast, is not bounded by `cores` under overload. -/
theorem bound_executors_le_cores :
    ∀ (cores : Nat) (ts : List SchedulerTransition),
      (schedRun (initResources cores) ts).boundExecutors ≤
        (schedRun (initResources cores) ts).cores :=
  fun cores ts => schedRun_bound_le (initResources cores) (Nat.zero_le _) ts

/-- Claim C4: evaluating the literal dispatch placement of `MpiWorld::create`
at world size 10 hands exactly one sibling call to the scheduler, not the
`size - 1 = 9` calls that the claim (and the repository's own
`Test world creation`) requires; the intended per-rank dispatch produces the
nine siblings with ranks `1..9` and the copied user/function, `isMpi` and
world-id fields. -/
theorem create_dispatch_outside_loop :
    (createChainedCalls "mpi" "hellompi" "" 123 10).length = 1
    ∧ ¬ (createChainedCalls "mpi" "hellompi" "" 123 10).length = 10 - 1
    ∧ (createChainedCallsIntended "mpi" "hellompi" "" 123 10).length = 10 - 1
    ∧ (createChainedCallsIntended "mpi" "hellompi" "" 123 10).map
        (fun m => m.mpiRank) = [1, 2, 3, 4, 5, 6, 7, 8, 9]
    ∧ (∀ m ∈ createChainedCallsIntended "mpi" "hellompi" "" 123 10,
        m.user = "mpi" ∧ m.function = "hellompi" ∧ m.isMpi = true ∧ m.mpiWorldId = 123) := by
  decide

/-- Claim C7, counterexample: on a 2 × 2 grid (world size 4), shifting rank 2
forwards by one unit along direction 0 reaches destination 0, but shifting
rank 0 by the displacement −1 in the same direction yields destination −2, not
the original rank 2: the forward path applies C++ truncated `%` to the
negative coordinate −1, so the `+d` then `−d` destination round-trip fails as
soon as the shift wraps. -/
theorem shift_negative_disp_breaks_roundtrip :
    shiftCartesianCoords 4 2 2 2 0 1 = .ok { source := 0, destination := 0 }
    ∧ shiftCartesianCoords 4 2 2 0 0 (-1) = .ok { source := 2, destination := -2 }
    ∧ ((-2 : Int) = 2 → False) := by
  decide

/-- Claim C8: on every completion of a function call — a successful return, a
failure return, or a thrown fault of `doExecute` — the executor's `finishCall`
emits the call-finished notification to the scheduler strictly before the
result write to the KV store, and both events occur, so an observer that sees
the call finished and then reads the result never finds it missing. -/
theorem notify_finished_before_result :
    ∀ outcome : DoExecuteOutcome,
      ExecutorEvent.notifyCallFinished ∈ executeCallTrace outcome
      ∧ ExecutorEvent.setFunctionResult ∈ executeCallTrace outcome
      ∧ List.indexOf ExecutorEvent.notifyCallFinished (executeCallTrace outcome) <
          List.indexOf ExecutorEvent.setFunctionResult (executeCallTrace outcome) := by
  intro outcome
  cases outcome <;> decide

end Faabric

namespace Faabric

/-- Storing a queue makes it the one found under its key. -/
theorem findQueue_storeQueue_same (mq : List ((Nat × Nat) × List MPIMessage))
    (key : Nat × Nat) (q : List MPIMessage) :
    findQueue (storeQueue mq key q) key = some q := by
  induction mq with
  | nil => simp [storeQueue, findQueue]
  | cons p rest ih =>
    obtain ⟨k, q0⟩ := p
    by_cases hk : k = key
    · subst hk; simp [storeQueue, findQueue]
    · simp [storeQueue, findQueue, hk, ih]

/-- When the receiving rank is mapped to this host and the queue already
exists, `getLocalQueue` returns it and leaves the world unchanged. -/
theorem getLocalQueue_of_found (w : MpiWorld) (sendRank recvRank : Nat)
    (q : List MPIMessage)
    (hhost : lookupHost w.rankHostMap recvRank = some w.thisHost)
    (hq : findQueue w.localQueueMap (sendRank, recvRank) = some q) :
    MpiWorld.getLocalQueue w sendRank recvRank = .ok (w, q) := by
  unfold MpiWorld.getLocalQueue MpiWorld.checkRankOnThisHost
  rw [hhost]
  simp [hq]

/-- Successful-receive shape shared by the point-to-point claims: with the
head message's type requested and no truncation, `recv` dequeues the head,
copies its payload exactly when the message count is positive, and fills the
status from the message. -/
theorem recv_ok_of_head (w : MpiWorld) (sendRank recvRank : Nat)
    (dataType : faabric_datatype_t) (count : Nat) (wantStatus : Bool)
    (m : MPIMessage) (rest : List MPIMessage)
    (hhost : lookupHost w.rankHostMap recvRank = some w.thisHost)
    (hq : findQueue w.localQueueMap (sendRank, recvRank) = some (m :: rest))
    (hcount : m.count ≤ count) :
    MpiWorld.recv w sendRank recvRank dataType count wantStatus m.messageType =
      .ok (some
        { world := MpiWorld.setLocalQueue w sendRank recvRank rest
          copied := if 0 < m.count then some m.buffer else none
          status := if wantStatus then
                      some { MPI_SOURCE := m.sender, MPI_ERROR := MPI_SUCCESS,
                             bytesSize := m.count * dataType.size, MPI_TAG := -1 }
                    else none }) := by
  have hgl := getLocalQueue_of_found w sendRank recvRank (m :: rest) hhost hq
  unfold MpiWorld.recv
  rw [hgl]
  simp [Nat.not_lt.mpr hcount]

/-- Claim C1: a point-to-point `recv` on `(sendRank, recvRank)` dequeues the
head message of that pair's local queue and fails exactly when the message
type does not match the requested one (`TypeMismatch`) or the message's count
exceeds the requested count (`Truncation`); otherwise it hands over the
payload and, when a status is requested, reports the sender as `MPI_SOURCE`,
`MPI_ERROR = 0`, `bytesSize` as the message count times the datatype size and
`MPI_TAG = -1`. -/
theorem recv_dequeues_head_and_fails_iff
    (w : MpiWorld) (sendRank recvRank : Nat) (dataType : faabric_datatype_t)
    (count : Nat) (wantStatus : Bool) (messageType : MPIMessageType)
    (m : MPIMessage) (rest : List MPIMessage)
    (hhost : lookupHost w.rankHostMap recvRank = some w.thisHost)
    (hq : findQueue w.localQueueMap (sendRank, recvRank) = some (m :: rest)) :
    ((∃ e, MpiWorld.recv w sendRank recvRank dataType count wantStatus messageType =
        .error e) ↔ messageType ≠ m.messageType ∨ count < m.count)
    ∧ (messageType ≠ m.messageType →
        MpiWorld.recv w sendRank recvRank dataType count wantStatus messageType =
          .error .TypeMismatch)
    ∧ (messageType = m.messageType → count < m.count →
        MpiWorld.recv w sendRank recvRank dataType count wantStatus messageType =
          .error .Truncation)
    ∧ (messageType = m.messageType → m.count ≤ count →
        MpiWorld.recv w sendRank recvRank dataType count wantStatus messageType =
          .ok (some
            { world := MpiWorld.setLocalQueue w sendRank recvRank rest
              copied := if 0 < m.count then some m.buffer else none
              status := if wantStatus then
                          some { MPI_SOURCE := m.sender, MPI_ERROR := MPI_SUCCESS,
                                 bytesSize := m.count * dataType.size, MPI_TAG := -1 }
                        else none })) := by
  have hgl := getLocalQueue_of_found w sendRank recvRank (m :: rest) hhost hq
  by_cases h1 : messageType = m.messageType
  · by_cases h2 : count < m.count
    · have herr : MpiWorld.recv w sendRank recvRank dataType count wantStatus messageType =
          .error .Truncation := by
        unfold MpiWorld.recv
        rw [hgl]
        simp [h1, h2]
      refine ⟨?_, ?_, ?_, ?_⟩
      · constructor
        · intro _; exact Or.inr h2
        · intro _; exact ⟨.Truncation, herr⟩
      · intro hne; exact absurd h1 hne
      · intro _ _; exact herr
      · intro _ hle; omega
    · have hok := recv_ok_of_head w sendRank recvRank dataType count wantStatus m rest
        hhost hq (Nat.not_lt.mp h2)
      rw [← h1] at hok
      refine ⟨?_, ?_, ?_, ?_⟩
      · constructor
        · intro he
          obtain ⟨e, he⟩ := he
          rw [hok] at he
          exact absurd he (by simp)
        · intro hor
          rcases hor with hmt | hcnt
          · exact absurd h1 hmt
          · exact absurd hcnt h2
      · intro hne; exact absurd h1 hne
      · intro _ hcnt; exact absurd hcnt h2
      · intro _ _
        exact hok
  · have herr : MpiWorld.recv w sendRank recvRank dataType count wantStatus messageType =
        .error .TypeMismatch := by
      unfold MpiWorld.recv
      rw [hgl]
      simp [h1]
    refine ⟨?_, ?_, ?_, ?_⟩
    · constructor
      · intro _; exact Or.inl h1
      · intro _; exact ⟨.TypeMismatch, herr⟩
    · intro _; exact herr
    · intro heq _; exact absurd heq h1
    · intro heq _; exact absurd heq h1

/-- Claim C1 witness: receiving the sample 3-int message with matching type
and count yields the payload, dequeues the queue and reports
`{MPI_SOURCE = 1, MPI_ERROR = 0, bytesSize = 12, MPI_TAG = -1}`. -/
theorem recv_dequeues_head_and_fails_iff_witness :
    MpiWorld.recv sampleWorld 1 2 MPI_INT 3 true .NORMAL =
      .ok (some
        { world := MpiWorld.setLocalQueue sampleWorld 1 2 []
          copied := some sampleMessage.buffer
          status := some { MPI_SOURCE := 1, MPI_ERROR := MPI_SUCCESS,
                           bytesSize := 12, MPI_TAG := -1 } }) :=
  ((recv_dequeues_head_and_fails_iff sampleWorld 1 2 MPI_INT 3 true .NORMAL
      sampleMessage [] (by decide) (by decide)).2.2.2 rfl (by decide)).trans (by decide)

/-- Claim C10: zero-length transfers are safe — a send with count 0 or a null
source buffer enqueues a message with an empty payload (the buffer-setting
branch requires a positive count and a non-null pointer), and receiving a
zero-count message performs no write through the destination pointer and
reports `bytesSize = 0` in the status. -/
theorem zero_length_transfers_safe :
    (∀ (kv : Nat → Option String) (w : MpiWorld) (sendRank recvRank : Nat)
        (buffer : Option (List Nat)) (dataType : faabric_datatype_t) (count : Nat)
        (messageType : MPIMessageType) (msgId : Nat),
        count = 0 ∨ buffer = none →
        ¬ recvRank > w.size - 1 →
        lookupHost w.rankHostMap recvRank = some w.thisHost →
        messageType ≠ MPIMessageType.RMA_WRITE →
        ∃ w1 : MpiWorld,
          MpiWorld.send kv w sendRank recvRank buffer dataType count messageType msgId =
            .ok (w1, .enqueuedLocal
              { id := msgId, worldId := w.id, sender := sendRank,
                destination := recvRank, type := dataType.id, count := count,
                messageType := messageType, buffer := [] })
          ∧ findQueue w1.localQueueMap (sendRank, recvRank) =
              some ((findQueue w.localQueueMap (sendRank, recvRank)).getD [] ++
                [{ id := msgId, worldId := w.id, sender := sendRank,
                   destination := recvRank, type := dataType.id, count := count,
                   messageType := messageType, buffer := [] }]))
    ∧ (∀ (w : MpiWorld) (sendRank recvRank : Nat) (dataType : faabric_datatype_t)
        (count : Nat) (wantStatus : Bool) (m : MPIMessage) (rest : List MPIMessage),
        lookupHost w.rankHostMap recvRank = some w.thisHost →
        findQueue w.localQueueMap (sendRank, recvRank) = some (m :: rest) →
        m.count = 0 →
        MpiWorld.recv w sendRank recvRank dataType count wantStatus m.messageType =
          .ok (some
            { world := MpiWorld.setLocalQueue w sendRank recvRank rest
              copied := none
              status := if wantStatus then
                          some { MPI_SOURCE := m.sender, MPI_ERROR := MPI_SUCCESS,
                                 bytesSize := 0, MPI_TAG := -1 }
                        else none })) := by
  constructor
  · intro kv w sendRank recvRank buffer dataType count messageType msgId
      hzero hrank hhost hmt
    have hbuf : (match buffer with
                 | some bs => if 0 < count then bs else []
                 | none => ([] : List Nat)) = [] := by
      rcases hzero with hc | hb
      · subst hc
        cases buffer <;> simp
      · subst hb
        rfl
    cases hfind : findQueue w.localQueueMap (sendRank, recvRank) with
    | some q =>
        have hgl := getLocalQueue_of_found w sendRank recvRank q hhost hfind
        refine ⟨MpiWorld.setLocalQueue w sendRank recvRank
          (q ++ [{ id := msgId, worldId := w.id, sender := sendRank,
                   destination := recvRank, type := dataType.id, count := count,
                   messageType := messageType, buffer := [] }]), ?_, ?_⟩
        · simp [MpiWorld.send, hrank, MpiWorld.getHostForRank, hhost, hbuf, hmt, hgl,
            MpiWorld.setLocalQueue]
        · simp [MpiWorld.setLocalQueue, findQueue_storeQueue_same]
    | none =>
        have hgl : MpiWorld.getLocalQueue w sendRank recvRank =
            .ok ({ w with localQueueMap :=
                     storeQueue w.localQueueMap (sendRank, recvRank) [] }, []) := by
          unfold MpiWorld.getLocalQueue MpiWorld.checkRankOnThisHost
          rw [hhost]
          simp [hfind]
        refine ⟨MpiWorld.setLocalQueue
            { w with localQueueMap := storeQueue w.localQueueMap (sendRank, recvRank) [] }
            sendRank recvRank
            ([] ++ [{ id := msgId, worldId := w.id, sender := sendRank,
                      destination := recvRank, type := dataType.id, count := count,
                      messageType := messageType, buffer := [] }]), ?_, ?_⟩
        · simp [MpiWorld.send, hrank, MpiWorld.getHostForRank, hhost, hbuf, hmt, hgl,
            MpiWorld.setLocalQueue]
        · simp [MpiWorld.setLocalQueue, findQueue_storeQueue_same]
  · intro w sendRank recvRank dataType count wantStatus m rest hhost hq hzero
    have hok := recv_ok_of_head w sendRank recvRank dataType count wantStatus m rest
      hhost hq (by omega)
    rw [hok]
    simp [hzero]

/-- Claim C10 witness: a count-0 send with a null source pointer enqueues an
empty-buffer message, and receiving the sample zero-count message with a null
destination succeeds with no copy and `bytesSize = 0`. -/
theorem zero_length_transfers_safe_witness :
    (∃ w1 : MpiWorld,
        MpiWorld.send kvEmpty sampleWorld 1 2 none MPI_INT 0 .NORMAL 7 =
          .ok (w1, .enqueuedLocal
            { id := 7, worldId := sampleWorld.id, sender := 1, destination := 2,
              type := MPI_INT.id, count := 0, messageType := .NORMAL, buffer := [] })
        ∧ findQueue w1.localQueueMap (1, 2) =
            some [sampleMessage,
              { id := 7, worldId := sampleWorld.id, sender := 1, destination := 2,
                type := MPI_INT.id, count := 0, messageType := .NORMAL, buffer := [] }])
    ∧ MpiWorld.recv sampleEmptyMsgWorld 1 2 MPI_INT 4 true .NORMAL =
        .ok (some
          { world := MpiWorld.setLocalQueue sampleEmptyMsgWorld 1 2 []
            copied := none
            status := some { MPI_SOURCE := 1, MPI_ERROR := MPI_SUCCESS,
                             bytesSize := 0, MPI_TAG := -1 } }) := by
  constructor
  · obtain ⟨w1, h1, h2⟩ := zero_length_transfers_safe.1 kvEmpty sampleWorld 1 2 none
      MPI_INT 0 .NORMAL 7 (Or.inl rfl) (by decide) (by decide) (by decide)
    exact ⟨w1, h1, h2.trans (by decide)⟩
  · exact (zero_length_transfers_safe.2 sampleEmptyMsgWorld 1 2 MPI_INT 4 true
      sampleEmptyMessage [] (by decide) (by decide) rfl).trans (by decide)

end Faabric

namespace Faabric

/-- The slot operation of every supported reduction is commutative. -/
theorem opForSlot_comm (operation : faabric_op) (hop : operation ≠ faabric_op.op_other) :
    ∀ x y, opForSlot operation x y = opForSlot operation y x := by
  intro x y
  cases operation with
  | op_max => exact max_comm x y
  | op_min => exact min_comm x y
  | op_sum => exact Int.add_comm x y
  | op_other => exact absurd rfl hop

/-- The slot operation of every supported reduction is associative. -/
theorem opForSlot_assoc (operation : faabric_op) (hop : operation ≠ faabric_op.op_other) :
    ∀ x y z,
      opForSlot operation (opForSlot operation x y) z =
        opForSlot operation x (opForSlot operation y z) := by
  intro x y z
  cases operation with
  | op_max => exact max_assoc x y z
  | op_min => exact min_assoc x y z
  | op_sum => exact Int.add_assoc x y z
  | op_other => exact absurd rfl hop

/-- `zipWith` of a commutative slot operation is commutative. -/
theorem zipWith_comm_of_op_comm (f : Int → Int → Int)
    (hcomm : ∀ x y, f x y = f y x) :
    ∀ a b : List Int, List.zipWith f a b = List.zipWith f b a := by
  intro a
  induction a with
  | nil => intro b; cases b <;> simp
  | cons x a ih =>
    intro b
    cases b with
    | nil => simp
    | cons y b =>
      simp only [List.zipWith_cons_cons]
      rw [hcomm x y, ih b]

/-- `zipWith` of a commutative, associative slot operation is
right-commutative. -/
theorem zipWith_right_comm (f : Int → Int → Int)
    (hcomm : ∀ x y, f x y = f y x)
    (hassoc : ∀ x y z, f (f x y) z = f x (f y z)) :
    ∀ a b c : List Int,
      List.zipWith f (List.zipWith f a b) c = List.zipWith f (List.zipWith f a c) b := by
  intro a
  induction a with
  | nil => intro b c; cases b <;> cases c <;> simp
  | cons x a ih =>
    intro b c
    cases b with
    | nil => cases c <;> simp
    | cons y b =>
      cases c with
      | nil => simp
      | cons z c =>
        simp only [List.zipWith_cons_cons]
        rw [ih b c, hassoc, hassoc, hcomm y z]

/-- Folding all buffers below `n` (with `n ≥ 1`) from an arbitrary start is
the elementwise reduction of the `n` buffers combined with the start. -/
theorem foldl_range_all (f : Int → Int → Int)
    (hcomm : ∀ x y, f x y = f y x)
    (hassoc : ∀ x y z, f (f x y) z = f x (f y z))
    (bufs : Nat → List Int) :
    ∀ n : Nat, 1 ≤ n → ∀ x : List Int,
      List.foldl (fun a r => List.zipWith f a (bufs r)) x (List.range n) =
        List.zipWith f (foldBuffers f bufs n) x := by
  intro n
  induction n with
  | zero => intro h; omega
  | succ n ih =>
    intro _ x
    by_cases h0 : n = 0
    · subst h0
      simp [List.range_succ, foldBuffers]
      exact zipWith_comm_of_op_comm f hcomm x (bufs 0)
    · rw [List.range_succ, List.foldl_append]
      simp only [List.foldl_cons, List.foldl_nil]
      rw [ih (by omega) x]
      rw [zipWith_right_comm f hcomm hassoc (foldBuffers f bufs n) x (bufs n)]
      simp [foldBuffers, h0]

/-- A fold that skips an element not occurring in the list is the plain fold. -/
theorem foldl_skip_of_not_mem (f : Int → Int → Int) (bufs : Nat → List Int) (root : Nat) :
    ∀ (rs : List Nat) (acc : List Int), (∀ r ∈ rs, r ≠ root) →
      List.foldl (fun a r => if r = root then a else List.zipWith f a (bufs r)) acc rs =
        List.foldl (fun a r => List.zipWith f a (bufs r)) acc rs := by
  intro rs
  induction rs with
  | nil => intro acc _; rfl
  | cons r rs ih =>
    intro acc hmem
    have hr : ¬ r = root := hmem r (List.mem_cons_self r rs)
    simp only [List.foldl_cons, if_neg hr]
    exact ih _ (fun x hx => hmem x (List.mem_cons_of_mem r hx))

/-- The root's skip-fold over all ranks below `n` (with `root < n`), started
from the root's own buffer, is the elementwise reduction of all `n` buffers. -/
theorem skip_fold_eq_foldBuffers (f : Int → Int → Int)
    (hcomm : ∀ x y, f x y = f y x)
    (hassoc : ∀ x y z, f (f x y) z = f x (f y z))
    (bufs : Nat → List Int) :
    ∀ n root : Nat, root < n →
      List.foldl (fun a r => if r = root then a else List.zipWith f a (bufs r))
          (bufs root) (List.range n) =
        foldBuffers f bufs n := by
  intro n
  induction n with
  | zero => intro root h; omega
  | succ n ih =>
    intro root hroot
    rw [List.range_succ, List.foldl_append]
    simp only [List.foldl_cons, List.foldl_nil]
    by_cases hr : root < n
    · have hne : ¬ n = root := by omega
      have h0 : ¬ n = 0 := by omega
      rw [ih root hr, if_neg hne]
      simp [foldBuffers, h0]
    · have heq : root = n := by omega
      subst heq
      rw [if_pos rfl]
      rw [foldl_skip_of_not_mem f bufs root (List.range root) (bufs root)
        (fun r hrm => by have := List.mem_range.mp hrm; omega)]
      by_cases h0 : root = 0
      · subst h0; simp [foldBuffers]
      · rw [foldl_range_all f hcomm hassoc bufs root (by omega) (bufs root)]
        simp [foldBuffers, h0]

/-- A supported `(operation, datatype)` pair makes `op_reduce` the pointwise
combination of the two buffers. -/
theorem op_reduce_ok (operation : faabric_op) (datatype : faabric_datatype_t)
    (count : Nat) (inBuffer outBuffer : List Int)
    (hop : operation ≠ faabric_op.op_other)
    (hdt : datatype.id = FAABRIC_INT ∨ datatype.id = FAABRIC_DOUBLE ∨
      datatype.id = FAABRIC_LONG_LONG) :
    op_reduce operation datatype count inBuffer outBuffer =
      .ok (List.zipWith (opForSlot operation) outBuffer inBuffer) := by
  cases operation with
  | op_max => simp only [op_reduce]; rw [if_pos hdt]; rfl
  | op_min => simp only [op_reduce]; rw [if_pos hdt]; rfl
  | op_sum => simp only [op_reduce]; rw [if_pos hdt]; rfl
  | op_other => exact absurd rfl hop

/-- With a supported operation the root loop never throws: it computes the
fold over the listed ranks, skipping the root. -/
theorem reduceLoop_ok (operation : faabric_op) (datatype : faabric_datatype_t)
    (count : Nat) (root : Nat) (bufs : Nat → List Int)
    (hop : operation ≠ faabric_op.op_other)
    (hdt : datatype.id = FAABRIC_INT ∨ datatype.id = FAABRIC_DOUBLE ∨
      datatype.id = FAABRIC_LONG_LONG) :
    ∀ (rs : List Nat) (acc : List Int),
      reduceLoop operation datatype count root bufs rs acc =
        .ok (List.foldl
          (fun a r => if r = root then a
                      else List.zipWith (opForSlot operation) a (bufs r))
          acc rs) := by
  intro rs
  induction rs with
  | nil => intro acc; rfl
  | cons r rs ih =>
    intro acc
    by_cases hr : r = root
    · simp only [reduceLoop, if_pos hr, List.foldl_cons]
      rw [ih acc]
    · simp only [reduceLoop, if_neg hr, List.foldl_cons,
        op_reduce_ok operation datatype count (bufs r) acc hop hdt]
      rw [ih]

/-- Claim C2: for every supported operation and datatype, when all `n` ranks
take part in a `reduce` with root `root`, the root's receive buffer afterwards
is the elementwise fold of the operation over all `n` ranks' send buffers —
the root starts from its own buffer (copied in when not in-place, already in
place otherwise) and folds in every other rank's buffer in rank order. -/
theorem reduce_root_is_elementwise_fold
    (operation : faabric_op) (datatype : faabric_datatype_t) (count n root : Nat)
    (bufs : Nat → List Int) (recvBuffer : List Int) (isInPlace : Bool)
    (hop : operation ≠ faabric_op.op_other)
    (hdt : datatype.id = FAABRIC_INT ∨ datatype.id = FAABRIC_DOUBLE ∨
      datatype.id = FAABRIC_LONG_LONG)
    (hroot : root < n)
    (hip : isInPlace = true → recvBuffer = bufs root) :
    reduce operation datatype count n root bufs recvBuffer isInPlace =
      .ok (foldBuffers (opForSlot operation) bufs n) := by
  have hinit : (if isInPlace then recvBuffer else bufs root) = bufs root := by
    cases isInPlace with
    | false => rfl
    | true => exact hip rfl
  have hstep : reduce operation datatype count n root bufs recvBuffer isInPlace =
      reduceLoop operation datatype count root bufs (List.range n) (bufs root) := by
    show reduceLoop operation datatype count root bufs (List.range n)
        (if isInPlace then recvBuffer else bufs root) = _
    rw [hinit]
  rw [hstep, reduceLoop_ok operation datatype count root bufs hop hdt (List.range n) (bufs root)]
  exact congrArg Except.ok
    (skip_fold_eq_foldBuffers (opForSlot operation) (opForSlot_comm operation hop)
      (opForSlot_assoc operation hop) bufs n root hroot)

/-- Claim C2 witness: reduce SUM on INT, world size 5, root 3, per-rank vector
`[r, 10r, 100r]`: the root's result is `[10, 100, 1000]`. -/
theorem reduce_root_is_elementwise_fold_witness :
    reduce .op_sum MPI_INT 3 5 3 (fun r => [(r : Int), 10 * r, 100 * r]) [] false =
      .ok [10, 100, 1000] :=
  (reduce_root_is_elementwise_fold .op_sum MPI_INT 3 5 3
      (fun r => [(r : Int), 10 * r, 100 * r]) [] false (by decide) (Or.inl rfl)
      (by decide) (by decide)).trans (by decide)

/-- One slot's memory image has exactly `w` bytes. -/
theorem bytesOfSlot_length (w : Nat) (v : Int) : (bytesOfSlot w v).length = w := by
  simp [bytesOfSlot]

/-- Serializing a buffer slot by slot prepends the head slot's bytes. -/
theorem serializeSlots_cons (w : Nat) (v : Int) (buf : List Int) :
    serializeSlots w (v :: buf) = bytesOfSlot w v ++ serializeSlots w buf := rfl

/-- A buffer of `n` slots of `w` bytes serializes to `n * w` bytes. -/
theorem serializeSlots_length (w : Nat) :
    ∀ buf : List Int, (serializeSlots w buf).length = buf.length * w := by
  intro buf
  induction buf with
  | nil => simp [serializeSlots]
  | cons v buf ih =>
    rw [serializeSlots_cons, List.length_append, bytesOfSlot_length, ih,
      List.length_cons]
    ring

/-- Dropping the first list of an append plus `n` drops `n` of the second. -/
theorem drop_shift (l₁ l₂ : List Nat) (n : Nat) :
    (l₁ ++ l₂).drop (l₁.length + n) = l₂.drop n := by
  induction l₁ with
  | nil => simp
  | cons a l₁ ih =>
    rw [List.cons_append, List.length_cons]
    have harith : l₁.length + 1 + n = (l₁.length + n) + 1 := by omega
    rw [harith, List.drop_succ_cons, ih]

/-- Taking exactly the first list's length out of an append returns it. -/
theorem take_append_left (l₁ l₂ : List Nat) (n : Nat) (h : l₁.length = n) :
    (l₁ ++ l₂).take n = l₁ := by
  subst h
  exact List.take_left l₁ l₂

/-- The little-endian digit string of `n < 256 ^ w` reads back as `n`. -/
theorem slotOfBytes_digits :
    ∀ w n : Nat, n < 256 ^ w →
      slotOfBytes ((List.range w).map (fun i => n / 256 ^ i % 256)) = n := by
  intro w
  induction w with
  | zero =>
    intro n hn
    have h0 : n = 0 := Nat.lt_one_iff.mp (by simpa using hn)
    simp [h0, slotOfBytes]
  | succ w ih =>
    intro n hn
    rw [List.range_succ_eq_map, List.map_cons, List.map_map]
    have hcomp : ((fun i => n / 256 ^ i % 256) ∘ Nat.succ) =
        (fun i => (n / 256) / 256 ^ i % 256) := by
      funext i
      simp only [Function.comp]
      rw [pow_succ', ← Nat.div_div_eq_div_mul]
    rw [hcomp]
    show n / 256 ^ 0 % 256 +
        256 * slotOfBytes ((List.range w).map fun i => n / 256 / 256 ^ i % 256) = n
    rw [ih (n / 256) (by
      rw [Nat.div_lt_iff_lt_mul (by norm_num : 0 < 256), ← pow_succ]
      exact hn)]
    rw [pow_zero, Nat.div_one]
    exact Nat.mod_add_div n 256

/-- A value in the signed range of a `w`-byte slot survives the round trip
through the slot's two's-complement memory image. -/
theorem slotValue_bytesOfSlot (w : Nat) (v : Int)
    (h1 : -((256 : Int) ^ w / 2) ≤ v) (h2 : v < (256 : Int) ^ w / 2) :
    slotValue w (bytesOfSlot w v) = v := by
  rcases Nat.eq_zero_or_pos w with hw | hw
  · subst hw
    simp only [pow_zero] at h1 h2
    omega
  · have hNpos : (0 : Int) < 256 ^ w := pow_pos (by norm_num) w
    have hdvd : (2 : Int) ∣ 256 ^ w := dvd_pow ⟨128, by norm_num⟩ hw.ne'
    have hhalf : (256 : Int) ^ w / 2 * 2 = 256 ^ w := Int.ediv_mul_cancel hdvd
    have hemod_nonneg : 0 ≤ v.emod ((256 : Int) ^ w) :=
      Int.emod_nonneg v (ne_of_gt hNpos)
    have hemod_lt : v.emod ((256 : Int) ^ w) < 256 ^ w := Int.emod_lt_of_pos v hNpos
    have hmlt : (v.emod ((256 : Int) ^ w)).toNat < 256 ^ w := by
      have hcast : ((v.emod ((256 : Int) ^ w)).toNat : Int) < ((256 ^ w : Nat) : Int) := by
        rw [Int.toNat_of_nonneg hemod_nonneg]
        exact_mod_cast hemod_lt
      exact_mod_cast hcast
    have hbytes : slotOfBytes (bytesOfSlot w v) = (v.emod ((256 : Int) ^ w)).toNat := by
      unfold bytesOfSlot
      exact slotOfBytes_digits w _ hmlt
    have hcast2 : ((slotOfBytes (bytesOfSlot w v) : Nat) : Int) = v.emod ((256 : Int) ^ w) := by
      rw [hbytes, Int.toNat_of_nonneg hemod_nonneg]
    unfold slotValue
    rw [hcast2]
    rcases le_or_lt 0 v with hv | hv
    · have hveq : v.emod ((256 : Int) ^ w) = v := Int.emod_eq_of_lt hv (by omega)
      rw [hveq, if_pos h2]
    · have haux : (v + 256 ^ w * 1).emod ((256 : Int) ^ w) = v.emod ((256 : Int) ^ w) :=
        Int.add_mul_emod_self_left v ((256 : Int) ^ w) 1
      rw [mul_one] at haux
      have hveq : v.emod ((256 : Int) ^ w) = v + 256 ^ w := by
        rw [← haux]
        exact Int.emod_eq_of_lt (by omega) (by omega)
      rw [hveq, if_neg (by omega)]
      omega

/-- A buffer whose slots are all in the signed `w`-byte range survives the
round trip through its memory image. -/
theorem deserializeSlots_serializeSlots (w : Nat) :
    ∀ buf : List Int,
      (∀ x ∈ buf, -((256 : Int) ^ w / 2) ≤ x ∧ x < (256 : Int) ^ w / 2) →
      deserializeSlots w buf.length (serializeSlots w buf) = buf := by
  intro buf
  induction buf with
  | nil => intro _; rfl
  | cons v buf ih =>
    intro hrange
    have hhead := hrange v (List.mem_cons_self v buf)
    have htail : ∀ x ∈ buf, -((256 : Int) ^ w / 2) ≤ x ∧ x < (256 : Int) ^ w / 2 :=
      fun x hx => hrange x (List.mem_cons_of_mem v hx)
    have htaileq : (List.range buf.length).map
        ((fun j => slotValue w
          (((bytesOfSlot w v ++ serializeSlots w buf).drop (j * w)).take w)) ∘ Nat.succ) =
        buf := by
      have hcong : ∀ j ∈ List.range buf.length,
          ((fun j => slotValue w
            (((bytesOfSlot w v ++ serializeSlots w buf).drop (j * w)).take w)) ∘ Nat.succ) j =
          slotValue w (((serializeSlots w buf).drop (j * w)).take w) := by
        intro j _
        simp only [Function.comp]
        have harith : Nat.succ j * w = (bytesOfSlot w v).length + j * w := by
          rw [bytesOfSlot_length, Nat.succ_eq_add_one]
          ring
        rw [harith, drop_shift]
      rw [List.map_congr_left hcong]
      exact ih htail
    show deserializeSlots w (buf.length + 1) (serializeSlots w (v :: buf)) = v :: buf
    rw [serializeSlots_cons]
    unfold deserializeSlots
    rw [List.range_succ_eq_map, List.map_cons, List.map_map]
    congr 1
    simp only [Nat.zero_mul, List.drop_zero]
    rw [take_append_left _ _ _ (bytesOfSlot_length w v)]
    exact slotValue_bytesOfSlot w v hhead.1 hhead.2

/-- When every rank's buffer has `count` slots, every running fold does. -/
theorem foldBuffers_length (f : Int → Int → Int) (bufs : Nat → List Int) (count : Nat)
    (hlen : ∀ r, (bufs r).length = count) :
    ∀ n : Nat, (foldBuffers f bufs n).length = count := by
  intro n
  induction n with
  | zero => exact hlen 0
  | succ n ih =>
    by_cases hn : n = 0
    · simp [foldBuffers, hn, hlen 0]
    · simp [foldBuffers, hn, List.length_zipWith, ih, hlen n, min_self]

/-- The forwarding hop is the identity exactly when the wire attaches the
whole accumulator: with `count` slots of `w` bytes sent as `w * count` wire
bytes, the receiver's reconstructed accumulator is the sender's, and no
uninitialized tail bytes are read. -/
theorem scan_hop_identity (w count : Nat) (prev : List Int) (junkBytes : List Nat)
    (hlen : prev.length = count)
    (hrange : ∀ x ∈ prev, -((256 : Int) ^ w / 2) ≤ x ∧ x < (256 : Int) ^ w / 2) :
    deserializeSlots w count
        (((serializeSlots w prev).take (w * count) ++ junkBytes).take (w * count)) =
      prev := by
  have hslen : (serializeSlots w prev).length = w * count := by
    rw [serializeSlots_length, hlen, Nat.mul_comm]
  have htake1 : (serializeSlots w prev).take (w * count) = serializeSlots w prev := by
    rw [← hslen, List.take_length]
  rw [htake1, take_append_left _ _ _ hslen, ← hlen]
  exact deserializeSlots_serializeSlots w prev hrange

/-- Claim C3 counterexample: on an 8-byte datatype the hard-coded `MPI_INT`
forwarding hop truncates the accumulator on the wire.  Scan with SUM on
`MPI_LONG_LONG`, count 1 and both ranks holding `2^32 = 4294967296`: rank 1's
wire carries only the 4 low (zero) bytes of rank 0's accumulator, so even with
all-zero uninitialized memory rank 1 computes `4294967296` instead of the
elementwise prefix sum `8589934592`. -/
theorem scan_long_long_wire_truncation :
    scan .op_sum MPI_LONG_LONG 1 (fun _ => [(4294967296 : Int)])
        (fun _ => List.replicate 8 0) 1 =
      .ok [(4294967296 : Int)] ∧
    foldBuffers (opForSlot .op_sum) (fun _ => [(4294967296 : Int)]) 2 =
      [(8589934592 : Int)] ∧
    ((4294967296 : Int) = 8589934592 → False) := by
  decide

/-- Claim C3 (amended): scan is an inclusive prefix reduction for 4-byte
datatypes — for every supported operation, every datatype of `MPI_INT`'s
width, every per-rank buffer of `count` slots whose running reductions all fit
the signed 4-byte range, and every content of the receivers' uninitialized
memory, rank `k`'s receive buffer after the chained scan is the elementwise
reduction of the send buffers of ranks `0` through `k`.  (For 8-byte
datatypes the `MPI_INT` forwarding hop truncates the accumulator:
the counterexample.) -/
theorem scan_inclusive_fold_of_int_width
    (operation : faabric_op) (datatype : faabric_datatype_t) (count : Nat)
    (bufs : Nat → List Int) (junk : Nat → List Nat)
    (hop : operation ≠ faabric_op.op_other)
    (hdt : datatype.id = FAABRIC_INT ∨ datatype.id = FAABRIC_DOUBLE ∨
      datatype.id = FAABRIC_LONG_LONG)
    (hsize : datatype.size = MPI_INT.size)
    (hlen : ∀ r, (bufs r).length = count) :
    ∀ k : Nat,
      (∀ j, j ≤ k + 1 → ∀ x ∈ foldBuffers (opForSlot operation) bufs j,
        -((256 : Int) ^ MPI_INT.size / 2) ≤ x ∧ x < (256 : Int) ^ MPI_INT.size / 2) →
      scan operation datatype count bufs junk k =
        .ok (foldBuffers (opForSlot operation) bufs (k + 1)) := by
  intro k
  induction k with
  | zero => intro _; rfl
  | succ k ih =>
    intro hrange
    have hprev := ih (fun j hj x hx => hrange j (by omega) x hx)
    simp only [scan, hprev]
    rw [hsize]
    rw [scan_hop_identity MPI_INT.size count
      (foldBuffers (opForSlot operation) bufs (k + 1)) (junk k)
      (foldBuffers_length (opForSlot operation) bufs count hlen (k + 1))
      (hrange (k + 1) (by omega))]
    rw [op_reduce_ok operation datatype count
      (foldBuffers (opForSlot operation) bufs (k + 1)) (bufs (k + 1)) hop hdt]
    refine congrArg Except.ok ?_
    rw [zipWith_comm_of_op_comm (opForSlot operation) (opForSlot_comm operation hop)
      (bufs (k + 1)) (foldBuffers (opForSlot operation) bufs (k + 1))]
    simp [foldBuffers]

/-- Claim C3 witness: scan SUM on INT with count 3 and per-rank vector
`[10r, 10r+1, 10r+2]` (all prefix sums fit a 4-byte int): rank 4's result is
the elementwise sum over ranks `0..4`, i.e. `[100, 105, 110]`. -/
theorem scan_inclusive_fold_of_int_width_witness :
    scan .op_sum MPI_INT 3 (fun r => [10 * (r : Int), 10 * r + 1, 10 * r + 2])
        (fun _ => []) 4 =
      .ok [100, 105, 110] :=
  (scan_inclusive_fold_of_int_width .op_sum MPI_INT 3
      (fun r => [10 * (r : Int), 10 * r + 1, 10 * r + 2]) (fun _ => [])
      (by decide) (Or.inl rfl) rfl (fun r => rfl) 4 (by decide)).trans
    (by decide)

end Faabric

namespace Faabric

/-- C++ truncated `%` of a nonnegative value by a positive modulus is the
mathematical remainder: nonnegative and below the modulus. -/
theorem cppMod_bounds_of_nonneg (a d : Int) (ha : 0 ≤ a) (hd : 0 < d) :
    0 ≤ cppMod a d ∧ cppMod a d < d := by
  unfold cppMod
  rw [Int.tmod_eq_emod ha (le_of_lt hd)]
  exact ⟨Int.emod_nonneg a (ne_of_gt hd), Int.emod_lt_of_pos a hd⟩

/-- Decomposition of a nonnegative rank: quotient, remainder and bounds. -/
theorem cpp_div_mod_bounds (rank d : Int) (h0 : 0 ≤ rank) (hd : 0 < d) :
    cppMod rank d + cppDiv rank d * d = rank
    ∧ 0 ≤ cppMod rank d ∧ cppMod rank d < d ∧ 0 ≤ cppDiv rank d := by
  unfold cppDiv cppMod
  rw [Int.tdiv_eq_ediv h0 (le_of_lt hd), Int.tmod_eq_emod h0 (le_of_lt hd)]
  refine ⟨?_, Int.emod_nonneg rank (ne_of_gt hd), Int.emod_lt_of_pos rank hd,
    Int.ediv_nonneg h0 (le_of_lt hd)⟩
  rw [mul_comm (rank / d) d, add_comm (rank % d) (d * (rank / d))]
  exact Int.ediv_add_emod rank d

/-- Recomposition: the C++ quotient/remainder of `j + i * d` are `i` and `j`
when `0 ≤ i` and `0 ≤ j < d`. -/
theorem cpp_decomp (i j d : Int) (hi : 0 ≤ i) (hj0 : 0 ≤ j) (hjd : j < d) :
    cppDiv (j + i * d) d = i ∧ cppMod (j + i * d) d = j := by
  have hd : 0 < d := lt_of_le_of_lt hj0 hjd
  have hnn : 0 ≤ j + i * d := add_nonneg hj0 (mul_nonneg hi (le_of_lt hd))
  constructor
  · unfold cppDiv
    rw [Int.tdiv_eq_ediv hnn (le_of_lt hd)]
    rw [Int.add_mul_ediv_right j i (ne_of_gt hd)]
    rw [Int.ediv_eq_zero_of_lt hj0 hjd]
    omega
  · unfold cppMod
    rw [Int.tmod_eq_emod hnn (le_of_lt hd)]
    rw [Int.add_mul_emod_self]
    exact Int.emod_eq_of_lt hj0 hjd

/-- Wrapping forwards by `disp` and then backwards (through the guarded
`- disp + d` path) returns to the original coordinate, for any displacement
between 0 and the dimension size. -/
theorem mod_shift_cancel (c disp d : Int) (hc0 : 0 ≤ c) (hcd : c < d)
    (hdisp : 0 ≤ disp) (hdd : disp ≤ d) :
    cppMod (cppMod (c + disp) d - disp + d) d = c := by
  have hd : 0 < d := lt_of_le_of_lt hc0 hcd
  have hcd0 : 0 ≤ c + disp := by linarith
  have he_eq : cppMod (c + disp) d = (c + disp) % d := by
    unfold cppMod
    exact Int.tmod_eq_emod hcd0 (le_of_lt hd)
  have he0 : 0 ≤ (c + disp) % d := Int.emod_nonneg _ (ne_of_gt hd)
  have harg : 0 ≤ (c + disp) % d - disp + d := by linarith
  rw [he_eq]
  unfold cppMod
  rw [Int.tmod_eq_emod harg (le_of_lt hd)]
  rw [show (c + disp) % d - disp + d = (c + disp) % d + (d - disp) from by ring]
  rw [Int.emod_add_emod]
  rw [show c + disp + (d - disp) = c + 1 * d from by ring]
  rw [Int.add_mul_emod_self]
  exact Int.emod_eq_of_lt hc0 hcd

/-- `shiftCartesianCoords` along direction 0, evaluated. -/
theorem shift_dir0_eval (size d0 d1 rank disp : Int) (hsz : d0 * d1 = size) :
    shiftCartesianCoords size d0 d1 rank 0 disp =
      .ok { source := cppMod rank d1 + cppMod (cppDiv rank d1 - disp + d0) d0 * d1
            destination := cppMod rank d1 + cppMod (cppDiv rank d1 + disp) d0 * d1 } := by
  have hns : ¬ d0 * d1 ≠ size := fun hne => hne hsz
  simp [shiftCartesianCoords, getRankFromCoords, hns]

/-- `shiftCartesianCoords` along direction 1, evaluated. -/
theorem shift_dir1_eval (size d0 d1 rank disp : Int) (hsz : d0 * d1 = size) :
    shiftCartesianCoords size d0 d1 rank 1 disp =
      .ok { source := cppMod (cppMod rank d1 - disp + d1) d1 + cppDiv rank d1 * d1
            destination := cppMod (cppMod rank d1 + disp) d1 + cppDiv rank d1 * d1 } := by
  have hns : ¬ d0 * d1 ≠ size := fun hne => hne hsz
  simp [shiftCartesianCoords, getRankFromCoords, hns]

/-- `shiftCartesianCoords` along any direction other than 0 and 1 keeps the
rank's own coordinates. -/
theorem shift_dirother_eval (size d0 d1 rank direction disp : Int)
    (hsz : d0 * d1 = size) (h0 : direction ≠ 0) (h1 : direction ≠ 1) :
    shiftCartesianCoords size d0 d1 rank direction disp =
      .ok { source := cppMod rank d1 + cppDiv rank d1 * d1
            destination := cppMod rank d1 + cppDiv rank d1 * d1 } := by
  have hns : ¬ d0 * d1 ≠ size := fun hne => hne hsz
  simp [shiftCartesianCoords, getRankFromCoords, hns, h0, h1]

/-- Claim C6: on a grid with `dims[0] * dims[1] = size`, for every rank
`0 ≤ r < size`, `getCartesianRank` yields the coordinates
`(r / dims[1], r % dims[1], 0, …)`, `getRankFromCoords` maps them back to `r`
(`rank = coords[1] + coords[0] * dims[1]`), and conversely every in-range
coordinate pair maps to a rank that decomposes back to it: the two operations
are mutually inverse. -/
theorem cartesian_rank_coords_inverse
    (size rank dims0 dims1 : Int) (higher : List Int)
    (hd0 : 0 < dims0) (hd1 : 0 < dims1) (hsz : dims0 * dims1 = size)
    (hr0 : 0 ≤ rank) (hr : rank < size)
    (hh : ∀ d ∈ higher, d = 1) :
    getCartesianRank size rank (dims0 :: dims1 :: higher) =
        .ok (cppDiv rank dims1 :: cppMod rank dims1 :: higher.map (fun _ => 0))
    ∧ getRankFromCoords size dims0 dims1
        (cppDiv rank dims1 :: cppMod rank dims1 :: higher.map (fun _ => 0)) = .ok rank
    ∧ (∀ i j : Int, 0 ≤ i → i < dims0 → 0 ≤ j → j < dims1 →
        getRankFromCoords size dims0 dims1 (i :: j :: higher.map (fun _ => 0)) =
            .ok (j + i * dims1)
        ∧ getCartesianRank size (j + i * dims1) (dims0 :: dims1 :: higher) =
            .ok (i :: j :: higher.map (fun _ => 0))) := by
  have hns : ¬ dims0 * dims1 ≠ size := fun hne => hne hsz
  have hany : higher.any (fun d => d ≠ 1) = false := by
    rw [List.any_eq_false]
    intro x hx
    simp [hh x hx]
  refine ⟨?_, ?_, ?_⟩
  · simp only [getCartesianRank]
    rw [if_neg (show ¬ rank > size - 1 by omega)]
    rw [if_neg hns]
    rw [if_neg (show ¬ (higher.any (fun d => d ≠ 1) = true) by rw [hany]; simp)]
  · simp only [getRankFromCoords]
    rw [if_neg hns]
    exact congrArg Except.ok (cpp_div_mod_bounds rank dims1 hr0 hd1).1
  · intro i j hi0 hid hj0 hjd
    have hmul : (i + 1) * dims1 ≤ dims0 * dims1 :=
      mul_le_mul_of_nonneg_right (by omega) (le_of_lt hd1)
    have hlt' : j + i * dims1 < dims0 * dims1 := by nlinarith [hmul]
    have hlt : j + i * dims1 < size := hsz ▸ hlt'
    have hdec := cpp_decomp i j dims1 hi0 hj0 hjd
    constructor
    · simp only [getRankFromCoords]
      rw [if_neg hns]
    · simp only [getCartesianRank]
      rw [if_neg (show ¬ j + i * dims1 > size - 1 by push_neg; linarith [hlt])]
      rw [if_neg hns]
      rw [if_neg (show ¬ (higher.any (fun d => d ≠ 1) = true) by rw [hany]; simp)]
      rw [hdec.1, hdec.2]

/-- Claim C6 witness: a 2 × 3 grid over a world of size 6; rank 4 has
coordinates `(1, 1, 0)` and maps back to rank 4. -/
theorem cartesian_rank_coords_inverse_witness :
    getCartesianRank 6 4 [2, 3, 1] = .ok [1, 1, 0]
    ∧ getRankFromCoords 6 2 3 [1, 1, 0] = .ok 4 := by
  have h := cartesian_rank_coords_inverse 6 4 2 3 [1] (by decide) (by decide) rfl
    (by decide) (by decide) (by decide)
  constructor
  · exact h.1.trans (by decide)
  · exact (congrArg (getRankFromCoords 6 2 3)
      (by decide : ([1, 1, 0] : List Int) =
        cppDiv 4 3 :: cppMod 4 3 :: List.map (fun _ => (0 : Int)) [1])).trans h.2.1

/-- Claim C7 (amended): on a stored grid with
`cartProcsPerDim[0] * cartProcsPerDim[1] = size`, torus round-trips hold when
the return hop is read from the source side: for every rank, direction 0 or 1
and displacement `0 ≤ d ≤ dim`, shifting forwards by `+d` and then asking the
destination for its `+d` source returns the original rank; for any direction
other than 0 and 1 both source and destination equal the rank itself.  (The
claim's `+d` then `−d` destination round-trip fails whenever the first shift
wraps, because the forward path applies C++ truncated `%` to a negative
value — see the counterexample.) -/
theorem shift_roundtrip_via_source
    (size cartProcsPerDim0 cartProcsPerDim1 rank disp : Int)
    (hsz : cartProcsPerDim0 * cartProcsPerDim1 = size)
    (hd0 : 0 < cartProcsPerDim0) (hd1 : 0 < cartProcsPerDim1)
    (hr0 : 0 ≤ rank) (hr : rank < size) (hdisp0 : 0 ≤ disp) :
    (disp ≤ cartProcsPerDim0 →
      ∃ p q : ShiftPair,
        shiftCartesianCoords size cartProcsPerDim0 cartProcsPerDim1 rank 0 disp = .ok p
        ∧ shiftCartesianCoords size cartProcsPerDim0 cartProcsPerDim1
            p.destination 0 disp = .ok q
        ∧ q.source = rank)
    ∧ (disp ≤ cartProcsPerDim1 →
      ∃ p q : ShiftPair,
        shiftCartesianCoords size cartProcsPerDim0 cartProcsPerDim1 rank 1 disp = .ok p
        ∧ shiftCartesianCoords size cartProcsPerDim0 cartProcsPerDim1
            p.destination 1 disp = .ok q
        ∧ q.source = rank)
    ∧ (∀ direction : Int, direction ≠ 0 → direction ≠ 1 →
        shiftCartesianCoords size cartProcsPerDim0 cartProcsPerDim1 rank direction disp =
          .ok { source := rank, destination := rank }) := by
  have hb := cpp_div_mod_bounds rank cartProcsPerDim1 hr0 hd1
  have hc0lt : cppDiv rank cartProcsPerDim1 < cartProcsPerDim0 := by
    have hdd : cppDiv rank cartProcsPerDim1 = rank / cartProcsPerDim1 := by
      unfold cppDiv
      exact Int.tdiv_eq_ediv hr0 (le_of_lt hd1)
    rw [hdd, Int.ediv_lt_iff_lt_mul hd1, hsz]
    exact hr
  refine ⟨?_, ?_, ?_⟩
  · intro hdd
    have h1eval := shift_dir0_eval size cartProcsPerDim0 cartProcsPerDim1 rank disp hsz
    have he := cppMod_bounds_of_nonneg (cppDiv rank cartProcsPerDim1 + disp)
      cartProcsPerDim0 (add_nonneg hb.2.2.2 hdisp0) hd0
    have hdec := cpp_decomp
      (cppMod (cppDiv rank cartProcsPerDim1 + disp) cartProcsPerDim0)
      (cppMod rank cartProcsPerDim1) cartProcsPerDim1 he.1 hb.2.1 hb.2.2.1
    have h2eval := shift_dir0_eval size cartProcsPerDim0 cartProcsPerDim1
      (cppMod rank cartProcsPerDim1 +
        cppMod (cppDiv rank cartProcsPerDim1 + disp) cartProcsPerDim0 * cartProcsPerDim1)
      disp hsz
    refine ⟨_, _, h1eval, h2eval, ?_⟩
    dsimp only
    rw [hdec.1, hdec.2]
    rw [mod_shift_cancel (cppDiv rank cartProcsPerDim1) disp cartProcsPerDim0
      hb.2.2.2 hc0lt hdisp0 hdd]
    exact hb.1
  · intro hdd
    have h1eval := shift_dir1_eval size cartProcsPerDim0 cartProcsPerDim1 rank disp hsz
    have he := cppMod_bounds_of_nonneg (cppMod rank cartProcsPerDim1 + disp)
      cartProcsPerDim1 (add_nonneg hb.2.1 hdisp0) hd1
    have hdec := cpp_decomp (cppDiv rank cartProcsPerDim1)
      (cppMod (cppMod rank cartProcsPerDim1 + disp) cartProcsPerDim1)
      cartProcsPerDim1 hb.2.2.2 he.1 he.2
    have h2eval := shift_dir1_eval size cartProcsPerDim0 cartProcsPerDim1
      (cppMod (cppMod rank cartProcsPerDim1 + disp) cartProcsPerDim1 +
        cppDiv rank cartProcsPerDim1 * cartProcsPerDim1)
      disp hsz
    refine ⟨_, _, h1eval, h2eval, ?_⟩
    dsimp only
    rw [hdec.1, hdec.2]
    rw [mod_shift_cancel (cppMod rank cartProcsPerDim1) disp cartProcsPerDim1
      hb.2.1 hb.2.2.1 hdisp0 hdd]
    exact hb.1
  · intro direction h0 h1
    rw [shift_dirother_eval size cartProcsPerDim0 cartProcsPerDim1 rank direction disp
      hsz h0 h1]
    rw [hb.1]

/-- Claim C7 witness: on the 2 × 2 grid, shifting rank 2 forwards one unit
along direction 0 and asking the destination for its one-unit source returns
rank 2; direction 5 keeps rank 2 in place. -/
theorem shift_roundtrip_via_source_witness :
    (∃ p q : ShiftPair,
      shiftCartesianCoords 4 2 2 2 0 1 = .ok p
      ∧ shiftCartesianCoords 4 2 2 p.destination 0 1 = .ok q
      ∧ q.source = 2)
    ∧ shiftCartesianCoords 4 2 2 2 5 1 = .ok { source := 2, destination := 2 } := by
  have h := shift_roundtrip_via_source 4 2 2 2 1 rfl (by decide) (by decide) (by decide)
    (by decide) (by decide)
  exact ⟨h.1 (by decide), h.2.2 5 (by decide) (by decide)⟩

end Faabric

namespace Faabric

/-- Lookup after a store: the stored rank maps to the stored host, every other
rank is unchanged. -/
theorem lookupHost_storeHost (m : List (Nat × String)) (rank : Nat) (hst : String)
    (x : Nat) :
    lookupHost (storeHost m rank hst) x = if x = rank then some hst else lookupHost m x := by
  induction m with
  | nil =>
    by_cases hx : x = rank
    · subst hx; simp [storeHost, lookupHost]
    · simp [storeHost, lookupHost, hx, Ne.symm hx]
  | cons p rest ih =>
    obtain ⟨r, h⟩ := p
    by_cases hr : r = rank
    · subst hr
      by_cases hx : x = r
      · subst hx; simp [storeHost, lookupHost]
      · simp [storeHost, lookupHost, hx, Ne.symm hx]
    · by_cases hx : r = x
      · subst hx
        simp [storeHost, lookupHost, hr, Ne.symm hr]
      · simp [storeHost, lookupHost, hr, hx, ih]

/-- Every entry of a queue-map store is the stored entry or an old one. -/
theorem mem_storeQueue (mq : List ((Nat × Nat) × List MPIMessage)) (key : Nat × Nat)
    (q : List MPIMessage) :
    ∀ e ∈ storeQueue mq key q, e = (key, q) ∨ e ∈ mq := by
  induction mq with
  | nil =>
    intro e he
    simp [storeQueue] at he
    exact Or.inl he
  | cons p rest ih =>
    obtain ⟨k, q0⟩ := p
    intro e he
    by_cases hk : k = key
    · have hsq : storeQueue ((k, q0) :: rest) key q = (key, q) :: rest := by
        simp [storeQueue, hk]
      rw [hsq] at he
      rcases List.mem_cons.mp he with he | he
      · exact Or.inl he
      · exact Or.inr (List.mem_cons_of_mem _ he)
    · have hsq : storeQueue ((k, q0) :: rest) key q = (k, q0) :: storeQueue rest key q := by
        simp [storeQueue, hk]
      rw [hsq] at he
      rcases List.mem_cons.mp he with he | he
      · exact Or.inr (by simp [he])
      · rcases ih e he with h1 | h1
        · exact Or.inl h1
        · exact Or.inr (List.mem_cons_of_mem _ h1)

/-- The queue invariant transfers along a state change that keeps the queue
map and this host and only extends the rank lookups. -/
theorem queue_inv_transfer (w wa : MpiWorld)
    (hq : wa.localQueueMap = w.localQueueMap)
    (hh : wa.thisHost = w.thisHost)
    (hl : ∀ x v, lookupHost w.rankHostMap x = some v → lookupHost wa.rankHostMap x = some v)
    (hinv : QueueKeysMappedHere w) : QueueKeysMappedHere wa := by
  intro e he
  rw [hq] at he
  rw [hh]
  exact hl _ _ (hinv e he)

/-- A successful `getHostForRank` keeps this host and the queue map and only
extends the cached rank lookups. -/
theorem getHostForRank_state (kv : Nat → Option String) (w : MpiWorld) (rank : Nat)
    (w1 : MpiWorld) (hst : String)
    (hok : MpiWorld.getHostForRank kv w rank = .ok (w1, hst)) :
    w1.thisHost = w.thisHost ∧ w1.localQueueMap = w.localQueueMap
    ∧ (∀ x v, lookupHost w.rankHostMap x = some v →
        lookupHost w1.rankHostMap x = some v) := by
  unfold MpiWorld.getHostForRank at hok
  split at hok
  next h heq =>
    simp only [Except.ok.injEq, Prod.mk.injEq] at hok
    obtain ⟨rfl, rfl⟩ := hok
    exact ⟨rfl, rfl, fun x v hv => hv⟩
  next heq =>
    split at hok
    next otherHost hkv =>
      simp only [Except.ok.injEq, Prod.mk.injEq] at hok
      obtain ⟨rfl, rfl⟩ := hok
      refine ⟨rfl, rfl, ?_⟩
      intro x v hv
      show lookupHost (storeHost w.rankHostMap rank otherHost) x = some v
      rw [lookupHost_storeHost]
      by_cases hx : x = rank
      · subst hx
        rw [heq] at hv
        cases hv
      · rw [if_neg hx]
        exact hv
    next hkv => cases hok

/-- A successful rank check means the rank is mapped to this host. -/
theorem checkRank_ok (w : MpiWorld) (rank : Nat) (u : Unit)
    (hok : MpiWorld.checkRankOnThisHost w rank = .ok u) :
    lookupHost w.rankHostMap rank = some w.thisHost := by
  unfold MpiWorld.checkRankOnThisHost at hok
  split at hok
  next heq => cases hok
  next h heq =>
    split at hok
    next hh => rw [heq, hh]
    next hh => cases hok

/-- A successful `getLocalQueue` keeps this host and the rank map, certifies
the receiving rank is mapped here, and preserves the queue invariant. -/
theorem getLocalQueue_state (w : MpiWorld) (sendRank recvRank : Nat)
    (w1 : MpiWorld) (q : List MPIMessage)
    (hok : MpiWorld.getLocalQueue w sendRank recvRank = .ok (w1, q)) :
    w1.thisHost = w.thisHost ∧ w1.rankHostMap = w.rankHostMap
    ∧ lookupHost w.rankHostMap recvRank = some w.thisHost
    ∧ (QueueKeysMappedHere w → QueueKeysMappedHere w1) := by
  unfold MpiWorld.getLocalQueue at hok
  split at hok
  next e heq => cases hok
  next u heq =>
    have hrank := checkRank_ok w recvRank u heq
    split at hok
    next q0 hfind =>
      simp only [Except.ok.injEq, Prod.mk.injEq] at hok
      obtain ⟨rfl, rfl⟩ := hok
      exact ⟨rfl, rfl, hrank, fun hi => hi⟩
    next hfind =>
      simp only [Except.ok.injEq, Prod.mk.injEq] at hok
      obtain ⟨rfl, rfl⟩ := hok
      refine ⟨rfl, rfl, hrank, ?_⟩
      intro hinv e he
      rcases mem_storeQueue w.localQueueMap (sendRank, recvRank) [] e he with h1 | h1
      · subst h1
        exact hrank
      · exact hinv e h1

/-- Replacing the queue of a rank mapped to this host preserves the
invariant. -/
theorem setLocalQueue_inv (w : MpiWorld) (sendRank recvRank : Nat) (q : List MPIMessage)
    (hinv : QueueKeysMappedHere w)
    (hr : lookupHost w.rankHostMap recvRank = some w.thisHost) :
    QueueKeysMappedHere (MpiWorld.setLocalQueue w sendRank recvRank q) := by
  intro e he
  rcases mem_storeQueue w.localQueueMap (sendRank, recvRank) q e he with h1 | h1
  · subst h1
    exact hr
  · exact hinv e h1

/-- A successful `send` preserves the queue invariant. -/
theorem send_inv (kv : Nat → Option String) (w : MpiWorld) (sendRank recvRank : Nat)
    (buffer : Option (List Nat)) (dataType : faabric_datatype_t) (count : Nat)
    (messageType : MPIMessageType) (msgId : Nat) (w1 : MpiWorld) (out : MpiWorld.SendOutcome)
    (hok : MpiWorld.send kv w sendRank recvRank buffer dataType count messageType msgId =
      .ok (w1, out))
    (hinv : QueueKeysMappedHere w) : QueueKeysMappedHere w1 := by
  simp only [MpiWorld.send] at hok
  split at hok
  next hrk => cases hok
  next hrk =>
    split at hok
    next e hg => cases hok
    next wa otherHost hg =>
      have hs := getHostForRank_state kv w recvRank wa otherHost hg
      have hinva : QueueKeysMappedHere wa :=
        queue_inv_transfer w wa hs.2.1 hs.1 hs.2.2 hinv
      split at hok
      next hloc =>
        split at hok
        next hmt =>
          simp only [Except.ok.injEq, Prod.mk.injEq] at hok
          obtain ⟨rfl, rfl⟩ := hok
          exact hinva
        next hmt =>
          split at hok
          next e hql => cases hok
          next w2 q2 hql =>
            have hq2 := getLocalQueue_state wa sendRank recvRank w2 q2 hql
            simp only [Except.ok.injEq, Prod.mk.injEq] at hok
            obtain ⟨rfl, rfl⟩ := hok
            refine setLocalQueue_inv w2 sendRank recvRank _ (hq2.2.2.2 hinva) ?_
            rw [hq2.2.1, hq2.1]
            exact hq2.2.2.1
      next hloc =>
        simp only [Except.ok.injEq, Prod.mk.injEq] at hok
        obtain ⟨rfl, rfl⟩ := hok
        exact hinva

/-- A completed `recv` preserves the queue invariant. -/
theorem recv_inv (w : MpiWorld) (sendRank recvRank : Nat) (dataType : faabric_datatype_t)
    (count : Nat) (wantStatus : Bool) (messageType : MPIMessageType)
    (res : MpiWorld.RecvResult)
    (hok : MpiWorld.recv w sendRank recvRank dataType count wantStatus messageType =
      .ok (some res))
    (hinv : QueueKeysMappedHere w) : QueueKeysMappedHere res.world := by
  unfold MpiWorld.recv at hok
  split at hok
  next e hql => cases hok
  next w1 q hql =>
    have hq1 := getLocalQueue_state w sendRank recvRank w1 q hql
    split at hok
    next => cases hok
    next m rest =>
      split at hok
      next hmt => cases hok
      next hmt =>
        split at hok
        next hcnt => cases hok
        next hcnt =>
          simp only [Except.ok.injEq, Option.some.injEq] at hok
          subst hok
          refine setLocalQueue_inv w1 sendRank recvRank rest (hq1.2.2.2 hinv) ?_
          rw [hq1.2.1, hq1.1]
          exact hq1.2.2.1

/-- Claim C9: every `MpiWorld` operation preserves the invariant that a local
in-memory queue keyed `(s, r)` exists only for a receiving rank `r` mapped to
this host, and any attempt to obtain the local queue for a rank that is not
mapped to this host — unregistered, or registered on a different host (also
after its mapping has been fetched into the cache) — fails rather than
creating a queue. -/
theorem local_queue_only_for_local_ranks :
    (∀ (kv : Nat → Option String) (w : MpiWorld) (op : WorldOp),
        QueueKeysMappedHere w → QueueKeysMappedHere (applyWorldOp kv w op))
    ∧ (∀ (w : MpiWorld) (sendRank recvRank : Nat),
        lookupHost w.rankHostMap recvRank ≠ some w.thisHost →
        ∃ e, MpiWorld.getLocalQueue w sendRank recvRank = Except.error e) := by
  constructor
  · intro kv w op hinv
    cases op with
    | registerRankOp rank =>
      intro e he
      show lookupHost (storeHost w.rankHostMap rank w.thisHost) e.1.2 = some w.thisHost
      rw [lookupHost_storeHost]
      by_cases hx : e.1.2 = rank
      · rw [if_pos hx]
      · rw [if_neg hx]
        exact hinv e he
    | getHostForRankOp rank =>
      simp only [applyWorldOp]
      cases hg : MpiWorld.getHostForRank kv w rank with
      | ok p =>
        obtain ⟨wa, hst⟩ := p
        have hs := getHostForRank_state kv w rank wa hst hg
        exact queue_inv_transfer w wa hs.2.1 hs.1 hs.2.2 hinv
      | error e => exact hinv
    | getLocalQueueOp s r =>
      simp only [applyWorldOp]
      cases hg : MpiWorld.getLocalQueue w s r with
      | ok p =>
        obtain ⟨w1, q⟩ := p
        exact (getLocalQueue_state w s r w1 q hg).2.2.2 hinv
      | error e => exact hinv
    | sendOp s r buffer dataType count messageType msgId =>
      simp only [applyWorldOp]
      cases hg : MpiWorld.send kv w s r buffer dataType count messageType msgId with
      | ok p =>
        obtain ⟨w1, out⟩ := p
        exact send_inv kv w s r buffer dataType count messageType msgId w1 out hg hinv
      | error e => exact hinv
    | recvOp s r dataType count wantStatus messageType =>
      simp only [applyWorldOp]
      cases hg : MpiWorld.recv w s r dataType count wantStatus messageType with
      | ok o =>
        cases o with
        | some res =>
          exact recv_inv w s r dataType count wantStatus messageType res hg hinv
        | none => exact hinv
      | error e => exact hinv
    | destroyWorld =>
      intro e he
      exact absurd he (List.not_mem_nil e)
  · intro w sendRank recvRank hne
    cases hl : lookupHost w.rankHostMap recvRank with
    | none =>
      refine ⟨.QueueForUnknownRank, ?_⟩
      unfold MpiWorld.getLocalQueue MpiWorld.checkRankOnThisHost
      rw [hl]
    | some h =>
      have hh : ¬ h = w.thisHost := fun hc => hne (by rw [hl, hc])
      refine ⟨.QueueForRemoteRank, ?_⟩
      unfold MpiWorld.getLocalQueue MpiWorld.checkRankOnThisHost
      rw [hl]
      simp [hh]

/-- Claim C9 witness: the sample world satisfies the invariant and keeps it
across a `getLocalQueue` call; in the world whose rank 2 is cached on another
host, obtaining the `(0, 2)` queue fails. -/
theorem local_queue_only_for_local_ranks_witness :
    QueueKeysMappedHere sampleWorld
    ∧ QueueKeysMappedHere (applyWorldOp kvEmpty sampleWorld (WorldOp.getLocalQueueOp 1 2))
    ∧ lookupHost sampleRemoteWorld.rankHostMap 2 ≠ some sampleRemoteWorld.thisHost
    ∧ (∃ e, MpiWorld.getLocalQueue sampleRemoteWorld 0 2 = Except.error e) :=
  ⟨by decide,
   local_queue_only_for_local_ranks.1 kvEmpty sampleWorld
     (WorldOp.getLocalQueueOp 1 2) (by decide),
   by decide,
   local_queue_only_for_local_ranks.2 sampleRemoteWorld 0 2 (by decide)⟩

end Faabric
